import Mathlib

/-!
Verification development for the fsdb embeddable document database engine.

The definitions in this file are a shallow embedding of the Go sources:

  - fsdb/btree.go            (BTree, Insert, Search, Delete, Update, compareKeys)
  - fsdb/btree_node.go       (BTreeNode, IsFull)
  - fsdb/index_manager.go    (IndexManager and key/value extraction helpers)
  - fulltext n-gram tokenizer (extractWords, NGram)
  - fsdb/datatype/datatype.go (InvertedIndex, posting lists)

Modelling conventions:

  - Go machine integers are modelled as Int.  No arithmetic in the embedded
    code can overflow at the sizes exercised by the theorems.
  - Go float64 key components are modelled as Rat.  The embedded code only
    ever compares floats, never computes with them, and for every value
    exercised by a theorem the float64 comparison agrees with the exact
    rational comparison (all such values are exactly representable).
  - Filesystem node storage is modelled as an association list from node id
    to node.  LoadNode returns a clean copy; SaveNode writes only dirty
    nodes and clears the dirty flag, exactly as FileBTreeNodeStorage does.
  - generateNodeID produces fresh random strings in Go; it is modelled by a
    counter producing "n0", "n1", ... (only freshness matters).
  - Unbounded Go loops and recursion over stored nodes are given a fuel
    parameter; exhausting fuel yields a dedicated error value.  Go runtime
    panics (out-of-range indexing, failed type assertions) are modelled as
    dedicated error values as well.
-/

namespace Fsdb

/-- A scalar key component, Go interface value of a composite key.
vint/vfloat/vstr are the cases btree.go compareKeys switches on; vnil is the
Go nil interface; vother stands for any other runtime type, carrying the
string that fmt.Sprintf with the sharp-v verb would print for it. -/
inductive KVal where
  | vint (i : Int)
  | vfloat (q : Rat)
  | vstr (s : String)
  | vnil
  | vother (goRepr : String)
  deriving Repr, DecidableEq

/-- A composite key: Go type of a slice of interface values. -/
abbrev Key := List KVal

/-- Go string comparison on rune lists: byte-wise lexicographic comparison
of the UTF-8 encodings, which coincides with code-point lexicographic
comparison. -/
def charListLt : List Char → List Char → Bool
  | [], [] => false
  | [], _ :: _ => true
  | _ :: _, [] => false
  | a :: as, b :: bs =>
    if a.toNat < b.toNat then true
    else if b.toNat < a.toNat then false
    else charListLt as bs

/-- Go string less-than. -/
def strLt (a b : String) : Bool := charListLt a.data b.data

/-- The text fmt.Sprintf with the sharp-v verb produces for a key component.
For the Go nil interface this is the angle-bracketed nil marker; ints print
in decimal; strings print quoted.  (Float formatting is approximated by the
Rat printer; no theorem below depends on the textual form of a float.) -/
def goRepr : KVal → String
  | .vint i => toString i
  | .vfloat q => toString q
  | .vstr s => "\"" ++ s ++ "\""
  | .vnil => "<nil>"
  | .vother r => r

/-- One iteration of the comparison loop in btree.go compareKeys: the outer
type switch on the left component.  Returns some r when the Go code executes
a return statement with r, none when the loop falls through to the next
component (either because the two compared equal or because the right
component had a type the inner switch does not handle). -/
def compareComponent (a b : KVal) : Option Int :=
  match a with
  | .vint va =>
    match b with
    | .vint vb =>
      if va < vb then some (-1) else if vb < va then some 1 else none
    | .vfloat vb =>
      if (va : Rat) < vb then some (-1) else if vb < (va : Rat) then some 1 else none
    | _ => none
  | .vfloat va =>
    match b with
    | .vint vb =>
      if va < (vb : Rat) then some (-1) else if (vb : Rat) < va then some 1 else none
    | .vfloat vb =>
      if va < vb then some (-1) else if vb < va then some 1 else none
    | _ => none
  | .vstr va =>
    match b with
    | .vstr vb =>
      if strLt va vb then some (-1) else if strLt vb va then some 1 else none
    | _ => none
  | _ =>
    -- default case: fallback to string comparison of the sharp-v forms
    let s1 := goRepr a
    let s2 := goRepr b
    if strLt s1 s2 then some (-1) else if strLt s2 s1 then some 1 else none

/-- The loop of btree.go compareKeys over the common prefix of the two keys;
when no component decides, the result is len(a) - len(b) (computed on the
remaining suffixes, which differ from the full lengths by the same amount). -/
def compareKeysAux : List KVal → List KVal → Int
  | x :: xs, y :: ys =>
    match compareComponent x y with
    | some r => r
    | none => compareKeysAux xs ys
  | xs, ys => (xs.length : Int) - (ys.length : Int)

/-- btree.go compareKeys: composite key comparison. -/
def compareKeys (a b : Key) : Int := compareKeysAux a b

/-! ## Full-text tokenizer (fulltext package: extractWords, NGram) -/

/-- The hard-coded English stop-word set of the fulltext package. -/
def englishStopWords : List String :=
  ["a", "an", "and", "are", "as", "at", "be", "by", "for", "from", "has", "he",
   "in", "is", "it", "its", "of", "on", "that", "the", "to", "was", "will", "with"]

/-- fulltext isEnglishChar: ASCII letter or digit.  For code points up to 127
the Go unicode.IsLetter and unicode.IsDigit classifiers coincide with the
ASCII alphabetic and digit tests used here. -/
def isEnglishChar (r : Char) : Bool :=
  r.toNat ≤ 127 && (r.isAlpha || r.isDigit)

/-- fulltext isChineseChar: membership in the Go unicode.Han range table
(Unicode Han script), reproduced here range by range. -/
def isChineseChar (r : Char) : Bool :=
  let c := r.toNat
  (0x2E80 ≤ c && c ≤ 0x2E99) || (0x2E9B ≤ c && c ≤ 0x2EF3) ||
  (0x2F00 ≤ c && c ≤ 0x2FD5) || c == 0x3005 || c == 0x3007 ||
  (0x3021 ≤ c && c ≤ 0x3029) || (0x3038 ≤ c && c ≤ 0x303B) ||
  (0x3400 ≤ c && c ≤ 0x4DBF) || (0x4E00 ≤ c && c ≤ 0x9FFF) ||
  (0xF900 ≤ c && c ≤ 0xFA6D) || (0xFA70 ≤ c && c ≤ 0xFAD9) ||
  (0x20000 ≤ c && c ≤ 0x2A6DF) || (0x2A700 ≤ c && c ≤ 0x2B739) ||
  (0x2B740 ≤ c && c ≤ 0x2B81D) || (0x2B820 ≤ c && c ≤ 0x2CEA1) ||
  (0x2CEB0 ≤ c && c ≤ 0x2EBE0) || (0x2F800 ≤ c && c ≤ 0x2FA1D) ||
  (0x30000 ≤ c && c ≤ 0x3134A) || (0x31350 ≤ c && c ≤ 0x323AF)

/-- Go unicode.IsSpace: the complete Unicode White_Space property
(Latin-1 fast path plus the table above Latin-1). -/
def isGoSpace (r : Char) : Bool :=
  let c := r.toNat
  c == 0x9 || c == 0xA || c == 0xB || c == 0xC || c == 0xD || c == 0x20 ||
  c == 0x85 || c == 0xA0 || c == 0x1680 || (0x2000 ≤ c && c ≤ 0x200A) ||
  c == 0x2028 || c == 0x2029 || c == 0x202F || c == 0x205F || c == 0x3000

/-- Go unicode.IsPunct (the union of the Unicode P categories), reproduced
exactly for the ASCII and Latin-1 rows and for the general/CJK punctuation
rows; every theorem below only feeds ASCII and Han characters, for which
this agrees with the full Go table. -/
def isGoPunct (r : Char) : Bool :=
  let c := r.toNat
  (0x21 ≤ c && c ≤ 0x23) || (0x25 ≤ c && c ≤ 0x2A) || (0x2C ≤ c && c ≤ 0x2F) ||
  c == 0x3A || c == 0x3B || c == 0x3F || c == 0x40 ||
  (0x5B ≤ c && c ≤ 0x5D) || c == 0x5F || c == 0x7B || c == 0x7D ||
  c == 0xA1 || c == 0xA7 || c == 0xAB || c == 0xB6 || c == 0xB7 ||
  c == 0xBB || c == 0xBF ||
  (0x2010 ≤ c && c ≤ 0x2027) || (0x2030 ≤ c && c ≤ 0x205E) ||
  (0x3001 ≤ c && c ≤ 0x3003) || (0x3008 ≤ c && c ≤ 0x3011) ||
  (0x3014 ≤ c && c ≤ 0x301F) ||
  (0xFF01 ≤ c && c ≤ 0xFF03) || (0xFF05 ≤ c && c ≤ 0xFF0A) ||
  (0xFF0C ≤ c && c ≤ 0xFF0F) || c == 0xFF1A || c == 0xFF1B ||
  c == 0xFF1F || c == 0xFF20 || (0xFF3B ≤ c && c ≤ 0xFF3D) || c == 0xFF3F ||
  c == 0xFF5B || c == 0xFF5D || (0xFF5F ≤ c && c ≤ 0xFF65)

/-- Go strings.ToLower applied per rune.  For ASCII letters this lowers
A..Z; Han characters and the other characters exercised by the theorems are
fixed points of the Go mapping, as they are here. -/
def goToLower (r : Char) : Char := r.toLower

/-- Flush the current word into the word list, dropping English stop words,
as each of the three flush sites of fulltext extractWords does. -/
def flushWord (words : List String) (cur : List Char) (curEng : Bool) : List String :=
  let w := String.mk cur
  if !curEng || !(englishStopWords.contains w) then words ++ [w] else words

/-- The character loop of fulltext extractWords, with the accumulated word
list, the current word and its language flag threaded explicitly. -/
def extractWordsLoop : List Char → List String → List Char → Bool → List String
  | [], words, cur, curEng =>
    if cur.isEmpty then words else flushWord words cur curEng
  | r :: rest, words, cur, curEng =>
    if isGoSpace r || isGoPunct r then
      if cur.isEmpty then
        extractWordsLoop rest words cur curEng
      else
        extractWordsLoop rest (flushWord words cur curEng) [] curEng
    else
      let isEng := isEnglishChar r
      let isChi := isChineseChar r
      if !isEng && !isChi then
        extractWordsLoop rest words cur curEng
      else if cur.isEmpty then
        extractWordsLoop rest words [r] isEng
      else if (curEng && !isEng) || (!curEng && !isChi) then
        extractWordsLoop rest (flushWord words cur curEng) [r] isEng
      else
        extractWordsLoop rest words (cur ++ [r]) curEng

/-- fulltext extractWords: lower-case the input, then split into words on
whitespace, punctuation and language boundary, dropping characters that are
neither ASCII-alphanumeric nor Han and dropping English stop words. -/
def extractWords (input : String) : List String :=
  extractWordsLoop (input.data.map goToLower) [] [] false

/-- All windows of n consecutive runes (the inner for loops of NGram);
callers guarantee n is at most the rune count. -/
def runeWindows (runes : List Char) (n : Nat) : List String :=
  (List.range (runes.length - n + 1)).map (fun i => String.mk ((runes.drop i).take n))

/-- The n-grams NGram emits for one extracted word. -/
def wordNGrams (word : String) (n : Int) : List String :=
  match word.data with
  | [] => []   -- unreachable: extractWords only produces non-empty words
  | c :: rest =>
    if isChineseChar c then
      if (c :: rest).length ≥ 2 then runeWindows (c :: rest) 2 else [word]
    else if isEnglishChar c && ((c :: rest).length : Int) ≤ n then [word]
    else if (((c :: rest).length : Int) ≥ n) then runeWindows (c :: rest) n.toNat
    else []

/-- fulltext NGram: returns nil for non-positive n, otherwise concatenates
per-word n-grams (Han words always as character bigrams, short ASCII words
whole, longer ASCII words as sliding windows of n runes). -/
def NGram (input : String) (n : Int) : List String :=
  if n ≤ 0 then []
  else (extractWords input).flatMap (fun w => wordNGrams w n)

/-! ## B+ tree data model (btree_node.go, btree_node_storage.go) -/

/-- A stored record: Go map from field name to value, as an association
list in declaration order (Go map iteration order is unspecified; every
theorem below observes rows only through lookups or fixed literals). -/
abbrev Row := List (String × KVal)

/-- A value slot of a node: internal nodes store child node identifiers
(Go strings), leaves store records. -/
inductive Val where
  | str (s : String)
  | rowv (r : Row)
  deriving Repr, DecidableEq

/-- The Go type assertion to string on a value slot; none models the
runtime panic on a non-string slot. -/
def Val.asStr : Val → Option String
  | .str s => some s
  | _ => none

inductive NodeType where
  | leaf
  | internal
  deriving Repr, DecidableEq

instance exceptDecEq {ε α : Type} [DecidableEq ε] [DecidableEq α] :
    DecidableEq (Except ε α) := fun x y =>
  match x, y with
  | .ok a, .ok b =>
    if h : a = b then isTrue (by rw [h])
    else isFalse (by intro hc; cases hc; exact h rfl)
  | .error a, .error b =>
    if h : a = b then isTrue (by rw [h])
    else isFalse (by intro hc; cases hc; exact h rfl)
  | .ok _, .error _ => isFalse (by intro hc; cases hc)
  | .error _, .ok _ => isFalse (by intro hc; cases hc)

/-- btree_node.go BTreeNode (the variant with composite keys used by
btree.go).  The indexPath field is part of the filesystem plumbing and is
not modelled. -/
structure BTreeNode where
  id : String
  type : NodeType
  isDirty : Bool
  pageSize : Int
  parent : String
  keys : List Key
  values : List Val
  next : String
  previous : String
  deriving Repr, DecidableEq

/-- btree_node.go NewBTreeNode: fresh nodes are dirty with empty contents. -/
def newBTreeNode (id : String) (t : NodeType) (pageSize : Int) : BTreeNode :=
  { id := id, type := t, pageSize := pageSize, parent := "", keys := [],
    values := [], next := "", previous := "", isDirty := true }

def BTreeNode.isLeaf (n : BTreeNode) : Bool := n.type == .leaf

/-- btree_node.go IsFull: the node holds at least PageSize keys. -/
def BTreeNode.isFull (n : BTreeNode) : Bool := (n.keys.length : Int) ≥ n.pageSize

/-- The node files of one index directory: an association list from node id
to the persisted node. -/
abbrev Store := List (String × BTreeNode)

def storeGet : Store → String → Option BTreeNode
  | [], _ => none
  | (k, n) :: rest, id => if k == id then some n else storeGet rest id

def storeSet : Store → BTreeNode → Store
  | [], n => [(n.id, n)]
  | (k, m) :: rest, n => if k == n.id then (k, n) :: rest else (k, m) :: storeSet rest n

/-- The error values surfaced by the embedded operations.  Go runtime
panics (out-of-range indexing, failed type assertions) and loop divergence
(fuel exhaustion) are modelled as dedicated errors. -/
inductive DBError where
  | duplicateKey
  | keyNotFound
  | treeEmpty
  | updateNotSupported
  | notAMap
  | loadFailed (id : String)
  | typeAssertFailed
  | indexOutOfRange
  | outOfFuel
  deriving Repr, DecidableEq

/-- btree.go BTree together with its node storage.  nextID models the
supply of fresh node identifiers behind generateNodeID. -/
structure BTree where
  store : Store
  rootID : String
  pageSize : Int
  isUniqueKey : Bool
  nextID : Nat
  deriving Repr, DecidableEq

/-- generateNodeID: a fresh identifier (random in Go; a counter here). -/
def genNodeID (bt : BTree) : String × BTree :=
  ("n" ++ toString bt.nextID, { bt with nextID := bt.nextID + 1 })

/-- FileBTreeNodeStorage.LoadNode: a clean copy of the stored node, or an
error when the file is missing. -/
def loadNode (st : Store) (id : String) : Except DBError BTreeNode :=
  match storeGet st id with
  | some n => .ok { n with isDirty := false }
  | none => .error (.loadFailed id)

/-- FileBTreeNodeStorage.SaveNode: writes only when the node is dirty and
then clears the dirty flag (also on the callers copy of the node). -/
def saveNode (st : Store) (n : BTreeNode) : Store × BTreeNode :=
  if n.isDirty then
    let n := { n with isDirty := false }
    (storeSet st n, n)
  else (st, n)

/-- The descent scan with a strict comparison: the number of leading node
keys strictly below the probe (insert and update descents in btree.go). -/
def posGT (key : Key) : List Key → Nat
  | [] => 0
  | s :: rest => if 0 < compareKeys key s then posGT key rest + 1 else 0

/-- The descent scan with a non-strict comparison: the number of leading
node keys at most the probe (search and delete descents in btree.go). -/
def posGE (key : Key) : List Key → Nat
  | [] => 0
  | s :: rest => if 0 ≤ compareKeys key s then posGE key rest + 1 else 0

/-- The non-unique insert position adjustment: skip past the run of keys
equal to the probe. -/
def countEqRun (key : Key) : List Key → Nat
  | [] => 0
  | s :: rest => if compareKeys key s = 0 then countEqRun key rest + 1 else 0

/-! ## B+ tree search (btree.go Search) -/

/-- The keyed descent loop of Search: at each internal node descend to the
first child whose separator is strictly greater than the key, clamped to
the last child. -/
def searchDescend (fuel : Nat) (st : Store) (node : BTreeNode) (key : Key) :
    Except DBError BTreeNode :=
  match fuel with
  | 0 => .error .outOfFuel
  | fuel + 1 =>
    if node.isLeaf then .ok node
    else
      let pos := posGE key node.keys
      let pos := if pos ≥ node.values.length then node.values.length - 1 else pos
      match node.values.get? pos with
      | none => .error .indexOutOfRange
      | some v =>
        match v.asStr with
        | none => .error .typeAssertFailed
        | some cid => do
          let child ← loadNode st cid
          searchDescend fuel st child key

/-- The leaf scan of Search: values at positions whose key equals the
probe, in leaf order. -/
def collectEqual (key : Key) : List Key → List Val → Except DBError (List Val)
  | [], _ => .ok []
  | k :: ks, vs =>
    if compareKeys key k = 0 then
      match vs with
      | [] => .error .indexOutOfRange
      | v :: vs => do
        let rest ← collectEqual key ks vs
        .ok (v :: rest)
    else
      match vs with
      | [] => collectEqual key ks []
      | _ :: vs => collectEqual key ks vs

/-- The descent to the leftmost leaf used by the full scan (key nil). -/
def descendLeftmost (fuel : Nat) (st : Store) (node : BTreeNode) :
    Except DBError BTreeNode :=
  match fuel with
  | 0 => .error .outOfFuel
  | fuel + 1 =>
    if node.isLeaf then .ok node
    else
      match node.values.get? 0 with
      | none => .error .indexOutOfRange
      | some v =>
        match v.asStr with
        | none => .error .typeAssertFailed
        | some cid => do
          let child ← loadNode st cid
          descendLeftmost fuel st child

/-- The leaf-chain walk of the full scan: follow next pointers, stop on a
repeated node id, on a missing next id, or on a failed load (the Go loop
breaks and returns the values gathered so far). -/
def walkLeaves (fuel : Nat) (st : Store) (node : BTreeNode)
    (visited : List String) (acc : List Val) : List Val :=
  match fuel with
  | 0 => acc
  | fuel + 1 =>
    if visited.contains node.id then acc
    else
      let acc := acc ++ node.values
      if node.next == "" then acc
      else
        match loadNode st node.next with
        | .error _ => acc
        | .ok nx => walkLeaves fuel st nx (node.id :: visited) acc

/-- btree.go Search: none as the key requests the full scan in key order;
a key returns all values bound to an equal key in the leaf the keyed
descent reaches. -/
def searchTree (fuel : Nat) (bt : BTree) (key : Option Key) :
    Except DBError (List Val) :=
  if bt.rootID == "" then .ok []
  else do
    let root ← loadNode bt.store bt.rootID
    match key with
    | none => do
      let lm ← descendLeftmost fuel bt.store root
      .ok (walkLeaves fuel bt.store lm [] [])
    | some k => do
      let leaf ← searchDescend fuel bt.store root k
      collectEqual k leaf.keys leaf.values

/-! ## B+ tree insertion (btree.go Insert, insertRecursive, splitLeaf,
insertInternalAfterSplit, splitInternal) -/

/-- The walk to the leftmost leaf along previous pointers performed by the
new-root branch of splitLeaf; a failed load breaks the walk and keeps the
current node, as in the source. -/
def walkToLeftmost (fuel : Nat) (st : Store) (cur : BTreeNode) :
    Except DBError BTreeNode :=
  match fuel with
  | 0 => .error .outOfFuel
  | fuel + 1 =>
    if cur.previous == "" then .ok cur
    else
      match loadNode st cur.previous with
      | .error _ => .ok cur
      | .ok prev => walkToLeftmost fuel st prev

/-- The gathering of the whole leaf chain along next pointers performed by
the new-root branch of splitLeaf; a failed load breaks the walk. -/
def gatherChain (fuel : Nat) (st : Store) (cur : BTreeNode) :
    Except DBError (List BTreeNode) :=
  match fuel with
  | 0 => .error .outOfFuel
  | fuel + 1 =>
    if cur.next == "" then .ok [cur]
    else
      match loadNode st cur.next with
      | .error _ => .ok [cur]
      | .ok nx => do
        let rest ← gatherChain fuel st nx
        .ok (cur :: rest)

/-- First keys of the gathered chain tail, the separators of the rebuilt
root; an empty gathered leaf makes the source panic on Keys[0]. -/
def headKeys : List BTreeNode → Except DBError (List Key)
  | [] => .ok []
  | n :: rest =>
    match n.keys.head? with
    | none => .error .indexOutOfRange
    | some k => do
      let ks ← headKeys rest
      .ok (k :: ks)

mutual

/-- btree.go insertRecursive.  Returns the threaded tree state, the callers
node object as mutated in place by the call, and the error result. -/
def insertRecursive (fuel : Nat) (bt : BTree) (node : BTreeNode) (key : Key)
    (v : Val) : BTree × BTreeNode × Option DBError :=
  match fuel with
  | 0 => (bt, node, some .outOfFuel)
  | fuel + 1 =>
    if node.isLeaf then
      let pos := posGT key node.keys
      if bt.isUniqueKey && node.keys.any (fun k => compareKeys key k == 0) then
        (bt, node, some .duplicateKey)
      else
        let pos := if bt.isUniqueKey then pos
                   else pos + countEqRun key (node.keys.drop pos)
        let node := { node with keys := node.keys.insertIdx pos key,
                                values := node.values.insertIdx pos v,
                                isDirty := true }
        if !node.isFull then
          let (st, node) := saveNode bt.store node
          ({ bt with store := st }, node, none)
        else
          splitLeaf fuel bt node
    else
      let pos := posGT key node.keys
      match node.values.get? pos with
      | none => (bt, node, some .indexOutOfRange)
      | some cv =>
        match cv.asStr with
        | none => (bt, node, some .typeAssertFailed)
        | some cid =>
          match loadNode bt.store cid with
          | .error e => (bt, node, some e)
          | .ok child =>
            match insertRecursive fuel bt child key v with
            | (bt, _, some e) => (bt, node, some e)
            | (bt, child, none) =>
              if child.isFull then
                (bt, node, none)   -- handleSplit is a no-op in the source
              else
                let (st, node) := saveNode bt.store node
                ({ bt with store := st }, node, none)

/-- btree.go splitLeaf.  The right half moves to a new sibling leaf; when
the (in-memory) parent pointer is empty, a new root is rebuilt over the
whole leaf chain.  The parent-pointer updates of the gathered chain nodes
are applied to clean copies, so SaveNode persists none of them; their only
observable effect is on the callers leaf object when it heads the chain. -/
def splitLeaf (fuel : Nat) (bt : BTree) (leaf : BTreeNode) :
    BTree × BTreeNode × Option DBError :=
  match fuel with
  | 0 => (bt, leaf, some .outOfFuel)
  | fuel + 1 =>
    let mid := leaf.keys.length / 2
    let (rid, bt) := genNodeID bt
    let right := { newBTreeNode rid .leaf bt.pageSize with
                   keys := leaf.keys.drop mid, values := leaf.values.drop mid,
                   next := leaf.next, previous := leaf.id }
    let bt :=
      if leaf.next != "" then
        match loadNode bt.store leaf.next with
        | .ok nx =>
          let (st, _) := saveNode bt.store { nx with previous := rid, isDirty := true }
          { bt with store := st }
        | .error _ => bt
      else bt
    let leaf := { leaf with keys := leaf.keys.take mid,
                            values := leaf.values.take mid,
                            next := rid, isDirty := true }
    let right := { right with parent := leaf.parent }
    let (st, leaf) := saveNode bt.store leaf
    let bt := { bt with store := st }
    let (st, right) := saveNode bt.store right
    let bt := { bt with store := st }
    if leaf.parent == "" then
      let (rootID2, bt) := genNodeID bt
      match walkToLeftmost fuel bt.store leaf with
      | .error e => (bt, leaf, some e)
      | .ok lm =>
        match gatherChain fuel bt.store lm with
        | .error e => (bt, leaf, some e)
        | .ok leaves =>
          match headKeys leaves.tail with
          | .error e => (bt, leaf, some e)
          | .ok seps =>
            let root := { newBTreeNode rootID2 .internal bt.pageSize with
                          keys := seps,
                          values := leaves.map (fun n => Val.str n.id) }
            let (st, _) := saveNode bt.store root
            let bt := { bt with store := st, rootID := rootID2 }
            let leaf := if leaf.previous == "" then { leaf with parent := rootID2 }
                        else leaf
            (bt, leaf, none)
    else
      match loadNode bt.store leaf.parent with
      | .error e => (bt, leaf, some e)
      | .ok parentNode =>
        match right.keys.head? with
        | none => (bt, leaf, some .indexOutOfRange)
        | some pk =>
          match insertInternalAfterSplit fuel bt parentNode pk rid with
          | (bt, err) => (bt, leaf, err)

/-- btree.go insertInternalAfterSplit: insert a promoted key with its right
child id into an internal node, splitting it when it reaches PageSize. -/
def insertInternalAfterSplit (fuel : Nat) (bt : BTree) (parent : BTreeNode)
    (key : Key) (rightID : String) : BTree × Option DBError :=
  match fuel with
  | 0 => (bt, some .outOfFuel)
  | fuel + 1 =>
    let pos := posGT key parent.keys
    let parent := { parent with
                    keys := parent.keys.insertIdx pos key,
                    values := parent.values.insertIdx (pos + 1) (Val.str rightID),
                    isDirty := true }
    if !parent.isFull then
      let (st, _) := saveNode bt.store parent
      ({ bt with store := st }, none)
    else
      splitInternal fuel bt parent

/-- btree.go splitInternal: promote the middle key (not copied); keys above
the middle move to a new right internal node with their trailing child
pointers.  In the new-root branch the parent-pointer updates of the two
halves happen after their saves on clean copies and never reach disk. -/
def splitInternal (fuel : Nat) (bt : BTree) (node : BTreeNode) :
    BTree × Option DBError :=
  match fuel with
  | 0 => (bt, some .outOfFuel)
  | fuel + 1 =>
    let mid := node.keys.length / 2
    let (rid, bt) := genNodeID bt
    let right := { newBTreeNode rid .internal bt.pageSize with
                   keys := node.keys.drop (mid + 1),
                   values := node.values.drop (mid + 1) }
    match node.keys.get? mid with
    | none => (bt, some .indexOutOfRange)
    | some promoteKey =>
      let node := { node with keys := node.keys.take mid,
                              values := node.values.take (mid + 1) }
      let (st, node) := saveNode bt.store node
      let bt := { bt with store := st }
      let (st, _) := saveNode bt.store right
      let bt := { bt with store := st }
      if node.parent == "" then
        let (rootID2, bt) := genNodeID bt
        let root := { newBTreeNode rootID2 .internal bt.pageSize with
                      keys := [promoteKey],
                      values := [Val.str node.id, Val.str rid] }
        let (st, _) := saveNode bt.store root
        ({ bt with store := st, rootID := rootID2 }, none)
      else
        match loadNode bt.store node.parent with
        | .error e => (bt, some e)
        | .ok parentNode => insertInternalAfterSplit fuel bt parentNode promoteKey rid

end

/-- The part of btree.go Insert after the uniqueness pre-check: create a
root leaf for an empty tree, otherwise load the root and recurse. -/
def insertTreeRoot (fuel : Nat) (bt : BTree) (key : Key) (v : Val) :
    BTree × Option DBError :=
  if bt.rootID == "" then
    let (rid, bt) := genNodeID bt
    let root := { newBTreeNode rid .leaf bt.pageSize with
                  keys := [key], values := [v] }
    let (st, _) := saveNode bt.store root
    ({ bt with store := st, rootID := rid }, none)
  else
    match loadNode bt.store bt.rootID with
    | .error e => (bt, some e)
    | .ok root =>
      match insertRecursive fuel bt root key v with
      | (bt, _, err) => (bt, err)

/-- btree.go Insert: when the tree enforces uniqueness and is non-empty, a
Search for the key runs first and a non-empty result aborts with the
duplicate-key error before any modification. -/
def insertTree (fuel : Nat) (bt : BTree) (key : Key) (v : Val) :
    BTree × Option DBError :=
  if bt.isUniqueKey && bt.rootID != "" then
    match searchTree fuel bt (some key) with
    | .error e => (bt, some e)
    | .ok results =>
      if results.length > 0 then (bt, some .duplicateKey)
      else insertTreeRoot fuel bt key v
  else insertTreeRoot fuel bt key v

/-! ## B+ tree deletion (btree.go Delete, deleteRecursive) -/

/-- The leaf removal loop of deleteRecursive: repeatedly remove the first
position whose key equals the probe until none remains; equivalent to
dropping every matching position from both parallel lists. -/
def removeAllEq (key : Key) : List Key → List Val → List Key × List Val
  | [], vs => ([], vs)
  | k :: ks, vs =>
    if compareKeys key k = 0 then
      match vs with
      | [] => removeAllEq key ks []
      | _ :: vs => removeAllEq key ks vs
    else
      match vs with
      | [] =>
        match removeAllEq key ks [] with
        | (ks, vs) => (k :: ks, vs)
      | v :: vs =>
        match removeAllEq key ks vs with
        | (ks, vs) => (k :: ks, v :: vs)

/-- btree.go deleteRecursive.  Returns the threaded tree state, the callers
node object as mutated in place, the changed flag, the shrink flag, and the
error result. -/
def deleteRecursive (fuel : Nat) (bt : BTree) (node : BTreeNode) (key : Key) :
    BTree × BTreeNode × Bool × Bool × Option DBError :=
  match fuel with
  | 0 => (bt, node, false, false, some .outOfFuel)
  | fuel + 1 =>
    if node.isLeaf then
      match removeAllEq key node.keys node.values with
      | (ks, vs) =>
        if ks.length ≠ node.keys.length then
          let node := { node with keys := ks, values := vs, isDirty := true }
          let (st, node) := saveNode bt.store node
          ({ bt with store := st }, node, true, node.keys.isEmpty, none)
        else
          (bt, node, false, node.keys.isEmpty, none)
    else
      let pos := posGE key node.keys
      let pos := if pos ≥ node.values.length then node.values.length - 1 else pos
      match node.values.get? pos with
      | none => (bt, node, false, false, some .indexOutOfRange)
      | some cv =>
        match cv.asStr with
        | none => (bt, node, false, false, some .typeAssertFailed)
        | some cid =>
          match loadNode bt.store cid with
          | .error e => (bt, node, false, false, some e)
          | .ok child =>
            match deleteRecursive fuel bt child key with
            | (bt, _, _, _, some e) => (bt, node, false, false, some e)
            | (bt, child, changed, shrink, none) =>
              if !changed then (bt, node, false, false, none)
              else if shrink && (child.isLeaf || child.keys.isEmpty) then
                let ks := if pos < node.keys.length then node.keys.eraseIdx pos
                          else node.keys
                let node := { node with keys := ks,
                                        values := node.values.eraseIdx pos,
                                        isDirty := true }
                let (st, node) := saveNode bt.store node
                let bt := { bt with store := st }
                if node.parent == "" && node.values.length == 1 then
                  match node.values.get? 0 with
                  | none => (bt, node, false, false, some .indexOutOfRange)
                  | some cv2 =>
                    match cv2.asStr with
                    | none => (bt, node, false, false, some .typeAssertFailed)
                    | some nrid =>
                      ({ bt with rootID := nrid }, node, true, true, none)
                else
                  (bt, node, true, node.keys.isEmpty, none)
              else
                let (st, node) := saveNode bt.store node
                ({ bt with store := st }, node, true, false, none)

/-- btree.go Delete: a no-op success on an empty tree; otherwise delete
recursively from the root; when the (mutated) root is an empty leaf after a
shrink the tree becomes empty. -/
def deleteTree (fuel : Nat) (bt : BTree) (key : Key) : BTree × Option DBError :=
  if bt.rootID == "" then (bt, none)
  else
    match loadNode bt.store bt.rootID with
    | .error e => (bt, some e)
    | .ok root =>
      match deleteRecursive fuel bt root key with
      | (bt, _, _, _, some e) => (bt, some e)
      | (bt, root, _, shrink, none) =>
        if shrink && root.isLeaf && root.keys.isEmpty then
          ({ bt with rootID := "" }, none)
        else (bt, none)

/-! ## B+ tree update (btree.go Update) -/

/-- The descent loop of Update: strict comparison, no clamp. -/
def updateDescend (fuel : Nat) (st : Store) (node : BTreeNode) (key : Key) :
    Except DBError BTreeNode :=
  match fuel with
  | 0 => .error .outOfFuel
  | fuel + 1 =>
    if node.isLeaf then .ok node
    else
      match node.values.get? (posGT key node.keys) with
      | none => .error .indexOutOfRange
      | some v =>
        match v.asStr with
        | none => .error .typeAssertFailed
        | some cid => do
          let child ← loadNode st cid
          updateDescend fuel st child key

/-- The leaf scan of Update: replace the value at the first position whose
key equals the probe; none when the key is absent. -/
def updateLeafValue (key : Key) (newValue : Val) :
    List Key → List Val → Option (List Val)
  | [], _ => none
  | k :: ks, vs =>
    if compareKeys key k = 0 then
      match vs with
      | [] => none
      | _ :: vs => some (newValue :: vs)
    else
      match vs with
      | [] => none
      | v :: vs =>
        match updateLeafValue key newValue ks vs with
        | none => none
        | some vs => some (v :: vs)

/-- btree.go Update: only for unique-key (clustered) trees; replaces the
value bound to the key in place, failing when the tree is empty or the key
is not found. -/
def updateTree (fuel : Nat) (bt : BTree) (key : Key) (newValue : Val) :
    BTree × Option DBError :=
  if !bt.isUniqueKey then (bt, some .updateNotSupported)
  else if bt.rootID == "" then (bt, some .treeEmpty)
  else
    match loadNode bt.store bt.rootID with
    | .error e => (bt, some e)
    | .ok root =>
      match updateDescend fuel bt.store root key with
      | .error e => (bt, some e)
      | .ok leaf =>
        match updateLeafValue key newValue leaf.keys leaf.values with
        | none => (bt, some .keyNotFound)
        | some vs =>
          let leaf := { leaf with values := vs, isDirty := true }
          let (st, _) := saveNode bt.store leaf
          ({ bt with store := st }, none)

/-! ## Index manager (index_manager.go) -/

structure IndexField where
  name : String
  ascending : Bool
  deriving Repr, DecidableEq

/-- The index definition variant used by index_manager.go and the
collection layer, with the IsClustered flag. -/
structure IndexDefinition where
  name : String
  keys : List IndexField
  isUnique : Bool
  includes : List String
  isClustered : Bool
  pageSize : Int
  deriving Repr, DecidableEq

/-- One IndexManager: the definition and its tree.  The rootNodeID meta
file mirrors bTree.rootID and is not modelled separately. -/
structure IndexManager where
  indexDef : IndexDefinition
  bTree : BTree
  deriving Repr, DecidableEq

/-- A Go map read: the nil interface for a missing field. -/
def rowGet (r : Row) (field : String) : KVal :=
  match r.lookup field with
  | some v => v
  | none => KVal.vnil

/-- index_manager.go extractIndexKey: the row values of the key fields. -/
def extractIndexKey (row : Row) (d : IndexDefinition) : Key :=
  d.keys.map (fun kf => rowGet row kf.name)

/-- index_manager.go extractNonClusteredValue: the projection of a row onto
the key fields plus the declared included fields, keeping only present
fields. -/
def extractNonClusteredValue (row : Row) (d : IndexDefinition) : Row :=
  (d.keys.filterMap fun kf => (row.lookup kf.name).map (fun v => (kf.name, v)))
    ++ (d.includes.filterMap fun f => (row.lookup f).map (fun v => (f, v)))

/-- index_manager.go NewIndexManager over a fresh index directory: the tree
enforces uniqueness exactly when the definition is clustered; the declared
unique flag is not consulted. -/
def newIndexManager (d : IndexDefinition) : IndexManager :=
  { indexDef := d,
    bTree := { store := [], rootID := "", pageSize := d.pageSize,
               isUniqueKey := d.isClustered, nextID := 0 } }

/-- index_manager.go Insert: the stored value is the full value for a
clustered index and the projected row for a non-clustered one. -/
def imInsert (fuel : Nat) (im : IndexManager) (key : Key) (value : Val) :
    IndexManager × Option DBError :=
  if im.indexDef.isClustered then
    match insertTree fuel im.bTree key value with
    | (bt, err) => ({ im with bTree := bt }, err)
  else
    match value with
    | .rowv row =>
      match insertTree fuel im.bTree key
              (Val.rowv (extractNonClusteredValue row im.indexDef)) with
      | (bt, err) => ({ im with bTree := bt }, err)
    | _ => (im, some .notAMap)

/-- index_manager.go Update: when the key changed, delete then insert; when
the key is unchanged, delegate to the trees Update (which rejects
non-unique trees). -/
def imUpdate (fuel : Nat) (im : IndexManager) (oldKey : Key) (oldValue : Val)
    (newKey : Key) (newValue : Val) : IndexManager × Option DBError :=
  if im.indexDef.isClustered then
    if compareKeys oldKey newKey ≠ 0 then
      match deleteTree fuel im.bTree oldKey with
      | (bt, some e) => ({ im with bTree := bt }, some e)
      | (bt, none) =>
        match insertTree fuel bt newKey newValue with
        | (bt, err) => ({ im with bTree := bt }, err)
    else
      match updateTree fuel im.bTree oldKey newValue with
      | (bt, err) => ({ im with bTree := bt }, err)
  else
    match oldValue, newValue with
    | .rowv _, .rowv newRow =>
      if compareKeys oldKey newKey ≠ 0 then
        match deleteTree fuel im.bTree oldKey with
        | (bt, some e) => ({ im with bTree := bt }, some e)
        | (bt, none) =>
          match insertTree fuel bt newKey
                  (Val.rowv (extractNonClusteredValue newRow im.indexDef)) with
          | (bt, err) => ({ im with bTree := bt }, err)
      else
        match updateTree fuel im.bTree oldKey
                (Val.rowv (extractNonClusteredValue newRow im.indexDef)) with
        | (bt, err) => ({ im with bTree := bt }, err)
    | _, _ => (im, some .notAMap)

/-- index_manager.go Delete: remove all entries with the key. -/
def imDelete (fuel : Nat) (im : IndexManager) (key : Key) :
    IndexManager × Option DBError :=
  match deleteTree fuel im.bTree key with
  | (bt, err) => ({ im with bTree := bt }, err)

/-- index_manager.go Search: a thin wrapper over the tree search. -/
def imSearch (fuel : Nat) (im : IndexManager) (key : Option Key) :
    Except DBError (List Val) :=
  searchTree fuel im.bTree key

/-! ## Inverted index (datatype.go InvertedIndex) -/

structure TermFrequency where
  docID : String
  freq : Int
  deriving Repr, DecidableEq

structure PostingList where
  term : String
  documents : List TermFrequency
  deriving Repr, DecidableEq

/-- The inverted index state: the in-memory term cache and the per-term
posting-list files of the index directory.  On disk a list is stored in a
file named by a hexadecimal encoding of the term, a bijection, so the map
is keyed here by the term itself. -/
structure InvertedIndex where
  ngramSize : Int
  cache : List (String × PostingList)
  disk : List (String × PostingList)
  deriving Repr, DecidableEq

def plGet : List (String × PostingList) → String → Option PostingList
  | [], _ => none
  | (k, pl) :: rest, term => if k == term then some pl else plGet rest term

def plSet : List (String × PostingList) → String → PostingList →
    List (String × PostingList)
  | [], term, pl => [(term, pl)]
  | (k, q) :: rest, term, pl =>
    if k == term then (k, pl) :: rest else (k, q) :: plSet rest term pl

def plRemove : List (String × PostingList) → String → List (String × PostingList)
  | [], _ => []
  | (k, q) :: rest, term =>
    if k == term then rest else (k, q) :: plRemove rest term

/-- NewInvertedIndex over a fresh directory: a non-positive n-gram size
defaults to trigrams. -/
def newInvertedIndex (ngramSize : Int) : InvertedIndex :=
  { ngramSize := if ngramSize ≤ 0 then 3 else ngramSize, cache := [], disk := [] }

/-- getPostingList: cache first, then the file, caching a hit; none when
the term has no posting list. -/
def getPostingList (idx : InvertedIndex) (term : String) :
    InvertedIndex × Option PostingList :=
  match plGet idx.cache term with
  | some pl => (idx, some pl)
  | none =>
    match plGet idx.disk term with
    | some pl => ({ idx with cache := plSet idx.cache term pl }, some pl)
    | none => (idx, none)

/-- The entry update inside addTermOccurrence: increment the frequency of
the first entry for the document, if present. -/
def bumpDoc (docID : String) (freq : Int) :
    List TermFrequency → Option (List TermFrequency)
  | [] => none
  | tf :: rest =>
    if tf.docID == docID then some ({ tf with freq := tf.freq + freq } :: rest)
    else (bumpDoc docID freq rest).map (tf :: ·)

/-- The descending-frequency ordering of posting-list entries.  Go sorts
with an unstable sort; the stable insertion sort used here agrees with it
whenever frequencies are distinct, as in every theorem below. -/
def sortByFreqDesc (docs : List TermFrequency) : List TermFrequency :=
  docs.insertionSort (fun a b => b.freq < a.freq)

/-- addTermOccurrence: load or create the posting list for the term, add or
increment the entry for the document, re-sort by descending frequency,
write the file and update the cache. -/
def addTermOccurrence (idx : InvertedIndex) (term : String) (docID : String)
    (freq : Int) : InvertedIndex :=
  let (idx, plOpt) := getPostingList idx term
  let pl := plOpt.getD { term := term, documents := [] }
  let docs :=
    match bumpDoc docID freq pl.documents with
    | some docs => docs
    | none => pl.documents ++ [{ docID := docID, freq := freq }]
  let pl := { pl with documents := sortByFreqDesc docs }
  { idx with disk := plSet idx.disk term pl, cache := plSet idx.cache term pl }

/-- removeDocumentUnsafe: scan each CACHED posting list, drop the entries
for the document, delete files of posting lists that became empty and
rewrite the rest.  Posting lists not resident in the cache are never
touched.  (Go iterates its cache map in unspecified order; the per-term
effects are independent, so list order is used here.) -/
def removeDocumentUnsafe (idx : InvertedIndex) (docID : String) : InvertedIndex :=
  idx.cache.foldl
    (fun acc entry =>
      let term := entry.1
      let pl := entry.2
      let newDocs := pl.documents.filter (fun tf => tf.docID != docID)
      if newDocs.isEmpty then
        { acc with cache := plRemove acc.cache term, disk := plRemove acc.disk term }
      else
        let pl := { pl with documents := newDocs }
        { acc with cache := plSet acc.cache term pl, disk := plSet acc.disk term pl })
    idx

/-- RemoveDocument: the locked wrapper around removeDocumentUnsafe. -/
def removeDocument (idx : InvertedIndex) (docID : String) : InvertedIndex :=
  removeDocumentUnsafe idx docID

/-- The distinct terms of an n-gram list in first-occurrence order.  (Go
counts frequencies in a map and iterates it in unspecified order; the
per-term updates commute up to map key order, which the theorems observe
only through lookups.) -/
def dedupKeep (l : List String) : List String :=
  l.foldl (fun acc t => if acc.contains t then acc else acc ++ [t]) []

/-- AddDocument: remove any prior entries for the document, generate
n-grams of the lower-cased text, count term frequencies, and add each term
occurrence. -/
def addDocument (idx : InvertedIndex) (docID : String) (text : String) :
    InvertedIndex :=
  let idx := removeDocumentUnsafe idx docID
  let ngrams := NGram (String.mk (text.data.map goToLower)) idx.ngramSize
  (dedupKeep ngrams).foldl
    (fun acc term => addTermOccurrence acc term docID (ngrams.count term : Int))
    idx

/-- Go strings.TrimSpace. -/
def trimSpaceGo (s : String) : String :=
  String.mk (((s.data.dropWhile isGoSpace).reverse.dropWhile isGoSpace).reverse)

/-- The per-document score accumulation of Search, in first-encounter
order.  Go sums frequencies as float64; the sums are small integers, summed
here exactly as Int. -/
def accumScores (scores : List (String × Int)) (docs : List TermFrequency) :
    List (String × Int) :=
  docs.foldl
    (fun acc tf =>
      match acc.lookup tf.docID with
      | some s => acc.map (fun p => if p.1 == tf.docID then (p.1, s + tf.freq) else p)
      | none => acc ++ [(tf.docID, tf.freq)])
    scores

/-- Search: tokenize the query, fetch the posting list of each n-gram
(through the cache), sum frequencies per document and return document ids
by descending summed score.  Returns the threaded index state because
getPostingList populates the cache. -/
def searchIndex (idx : InvertedIndex) (query : String) :
    InvertedIndex × List String :=
  if trimSpaceGo query == "" then (idx, [])
  else
    let ngrams := NGram (String.mk (query.data.map goToLower)) idx.ngramSize
    if ngrams.isEmpty then (idx, [])
    else
      let (idx, pls) := ngrams.foldl
        (fun (acc : InvertedIndex × List PostingList) ng =>
          match getPostingList acc.1 ng with
          | (idx, some pl) => (idx, acc.2 ++ [pl])
          | (idx, none) => (idx, acc.2))
        (idx, [])
      if pls.isEmpty then (idx, [])
      else
        let scores := pls.foldl (fun acc pl => accumScores acc pl.documents) []
        let sorted := scores.insertionSort (fun a b => b.2 < a.2)
        (idx, sorted.map (fun p => p.1))

/-- Collection generateDocumentID: the key components printed with the
plain v verb, joined with underscores. -/
def goReprPlain : KVal → String
  | .vint i => toString i
  | .vfloat q => toString q
  | .vstr s => s
  | .vnil => "<nil>"
  | .vother r => r

def generateDocumentID (key : Key) : String :=
  String.intercalate "_" (key.map goReprPlain)

/-! ## The descent path of a deletion

deleteRecursive performs all its loads on the way down, before any node is
saved, so the sequence of visited node ids is a function of the initial
store; it is reproduced here to state which nodes a deletion may touch. -/

def deletePath (fuel : Nat) (st : Store) (node : BTreeNode) (key : Key) :
    List String :=
  match fuel with
  | 0 => [node.id]
  | fuel + 1 =>
    if node.isLeaf then [node.id]
    else
      let pos := posGE key node.keys
      let pos := if pos ≥ node.values.length then node.values.length - 1 else pos
      match node.values.get? pos with
      | none => [node.id]
      | some cv =>
        match cv.asStr with
        | none => [node.id]
        | some cid =>
          match loadNode st cid with
          | .error _ => [node.id]
          | .ok child => node.id :: deletePath fuel st child key

def deleteTreePath (fuel : Nat) (bt : BTree) (key : Key) : List String :=
  if bt.rootID == "" then []
  else
    match loadNode bt.store bt.rootID with
    | .error _ => []
    | .ok root => deletePath fuel bt.store root key

/-! ## Key signatures and tree well-formedness (spec section 3 invariants) -/

inductive KKind where
  | num
  | str
  deriving Repr, DecidableEq

/-- The comparison kind of a component: int and float compare numerically
across each other, strings compare as strings; nil and other types have no
kind. -/
def kindOf : KVal → Option KKind
  | .vint _ => some .num
  | .vfloat _ => some .num
  | .vstr _ => some .str
  | .vnil => none
  | .vother _ => none

/-- The numeric value of a numeric component. -/
def ratVal : KVal → Rat
  | .vint i => (i : Rat)
  | .vfloat q => q
  | _ => 0

/-- The string value of a string component. -/
def strVal : KVal → String
  | .vstr s => s
  | _ => ""

/-- A key is shaped by a signature when its components have exactly the
kinds of the signature: all components carry int, float or string values,
with the kinds matching positionally (as the keys of one index do). -/
def Shaped (sig : List KKind) (k : Key) : Prop :=
  k.map kindOf = sig.map some

/-- Lower separator bound: none is unbounded, otherwise the bound is at
most the key. -/
def lbOK (lo : Option Key) (k : Key) : Prop :=
  ∀ l, lo = some l → compareKeys l k ≤ 0

/-- Upper separator bound: none is unbounded, otherwise the key is strictly
below the bound. -/
def ubOK (hi : Option Key) (k : Key) : Prop :=
  ∀ u, hi = some u → compareKeys k u < 0

/-- The lower bound of child i of an internal node with the given lower
bound and separators. -/
def childLo (lo : Option Key) (seps : List Key) : Nat → Option Key
  | 0 => lo
  | i + 1 => seps.get? i

/-- The upper bound of child i: its right separator, or the nodes upper
bound for the last child. -/
def childHi (hi : Option Key) (seps : List Key) (i : Nat) : Option Key :=
  match seps.get? i with
  | some s => some s
  | none => hi

/-- Membership of a key in the subtree stored below a node id. -/
inductive InSubtree (st : Store) : String → Key → Prop
  | leaf (id : String) (n : BTreeNode) (k : Key) :
      storeGet st id = some n → n.type = .leaf → k ∈ n.keys →
      InSubtree st id k
  | child (id : String) (n : BTreeNode) (i : Nat) (cid : String) (k : Key) :
      storeGet st id = some n → n.type = .internal →
      n.values.get? i = some (.str cid) → InSubtree st cid k →
      InSubtree st id k

/-- Well-formedness of the subtree below a node id, per the invariants of
spec section 3: stored node exists; a leaf holds equally many keys and
values, all keys shaped and within the separator bounds; an internal node
holds one more child pointer than keys, its separators shaped, strictly
ascending and within the bounds, and each child well-formed within the
sub-interval its position determines.  The index bounds the number of
internal levels. -/
inductive WFNode (st : Store) (sig : List KKind) :
    String → Nat → Option Key → Option Key → Prop
  | leaf (id : String) (n : BTreeNode) (h : Nat) (lo hi : Option Key) :
      storeGet st id = some n → n.type = .leaf →
      n.keys.length = n.values.length →
      (∀ k ∈ n.keys, Shaped sig k ∧ lbOK lo k ∧ ubOK hi k) →
      WFNode st sig id h lo hi
  | internal (id : String) (n : BTreeNode) (h : Nat) (lo hi : Option Key) :
      storeGet st id = some n → n.type = .internal →
      n.values.length = n.keys.length + 1 →
      (∀ s ∈ n.keys, Shaped sig s ∧ lbOK lo s ∧ ubOK hi s) →
      n.keys.Pairwise (fun s t => compareKeys s t < 0) →
      (∀ i, i < n.values.length → ∃ cid, n.values.get? i = some (.str cid)) →
      (∀ i cid, n.values.get? i = some (.str cid) →
        WFNode st sig cid h (childLo lo n.keys i) (childHi hi n.keys i)) →
      WFNode st sig id (h + 1) lo hi

/-- A record with a key equal to k exists in the tree. -/
def TreeHasKey (bt : BTree) (k : Key) : Prop :=
  bt.rootID ≠ "" ∧ ∃ q, InSubtree bt.store bt.rootID q ∧ compareKeys k q = 0

/-! ## Concrete scenario states used by the theorems -/

def emptyTree (pageSize : Int) (unique : Bool) : BTree :=
  { store := [], rootID := "", pageSize := pageSize, isUniqueKey := unique,
    nextID := 0 }

def intKey (i : Int) : Key := [KVal.vint i]

def rowOf (i : Int) (s : String) : Val :=
  Val.rowv [("id", KVal.vint i), ("name", KVal.vstr s)]

/-- Run a sequence of insertions, stopping at the first error. -/
def insertAll (fuel : Nat) (bt : BTree) (rows : List (Key × Val)) :
    BTree × Option DBError :=
  rows.foldl
    (fun acc kv =>
      match acc with
      | (bt, some e) => (bt, some e)
      | (bt, none) => insertTree fuel bt kv.1 kv.2)
    (bt, none)

/-- A unique (clustered) page-size-3 tree after inserting keys 1, 2, 3. -/
def treeU3 : BTree × Option DBError :=
  insertAll 32 (emptyTree 3 true)
    [(intKey 1, rowOf 1 "one"), (intKey 2, rowOf 2 "two"),
     (intKey 3, rowOf 3 "three")]

/-- ... then deleting key 2. -/
def treeU3d : BTree × Option DBError := deleteTree 32 treeU3.1 (intKey 2)

/-- ... then re-inserting key 2. -/
def treeU3di : BTree × Option DBError :=
  insertTree 32 treeU3d.1 (intKey 2) (rowOf 2 "twoAgain")

/-- A non-unique page-size-2 tree after inserting key 2 three times. -/
def treeN3 : BTree × Option DBError :=
  insertAll 32 (emptyTree 2 false)
    [(intKey 2, rowOf 2 "A"), (intKey 2, rowOf 2 "B"), (intKey 2, rowOf 2 "C")]

/-- ... then deleting key 2 once. -/
def treeN3d : BTree × Option DBError := deleteTree 32 treeN3.1 (intKey 2)

/-- ... then deleting key 2 a second time. -/
def treeN3dd : BTree × Option DBError := deleteTree 32 treeN3d.1 (intKey 2)

/-- A unique page-size-2 tree after inserting keys 1 and 2: the second
insert brings the root leaf to exactly pageSize keys. -/
def treeP2 : BTree × Option DBError :=
  insertAll 32 (emptyTree 2 true)
    [(intKey 1, rowOf 1 "a"), (intKey 2, rowOf 2 "b")]

/-- A non-unique page-size-2 tree holding the single key 1: its root is a
leaf one key short of the split threshold. -/
def treeW1 : BTree :=
  (insertTree 32 (emptyTree 2 false) (intKey 1) (rowOf 1 "a")).1

/-- The stored root leaf of treeW1. -/
def nodeW1 : BTreeNode :=
  { id := "n0", type := NodeType.leaf, isDirty := false, pageSize := 2,
    parent := "", keys := [intKey 1], values := [rowOf 1 "a"],
    next := "", previous := "" }

/-- A unique (clustered) page-size-3 tree holding the single key 1. -/
def treeC1 : BTree :=
  (insertTree 32 (emptyTree 3 true) (intKey 1) (rowOf 1 "one")).1

/-- The stored root leaf of treeC1. -/
def nodeC1 : BTreeNode :=
  { id := "n0", type := NodeType.leaf, isDirty := false, pageSize := 3,
    parent := "", keys := [intKey 1], values := [rowOf 1 "one"],
    next := "", previous := "" }

/-- A secondary (non-clustered) index on the name field declared without
included fields. -/
def byNameDef : IndexDefinition :=
  { name := "by_name", keys := [{ name := "name", ascending := true }],
    isUnique := false, includes := [], isClustered := false, pageSize := 10 }

/-- The same secondary index declared with IsUnique set. -/
def byNameUniqueDef : IndexDefinition :=
  { byNameDef with isUnique := true }

def rowX : Row := [("id", KVal.vint 1), ("name", KVal.vstr "X")]
def rowY : Row := [("id", KVal.vint 1), ("name", KVal.vstr "Y")]
def rowX2 : Row := [("id", KVal.vint 2), ("name", KVal.vstr "X")]

/-- The by-name secondary index manager holding rowX. -/
def imX : IndexManager × Option DBError :=
  imInsert 32 (newIndexManager byNameDef) [KVal.vstr "X"] (Val.rowv rowX)

/-- The unique page-size-3 tree after inserting 1, 2, 3 and deleting 3:
the right leaf drops to a single key. -/
def treeU3d3 : BTree × Option DBError := deleteTree 32 treeU3.1 (intKey 3)

/-- The by-name secondary index after the key-changing update of rowX to
rowY. -/
def imXtoY : IndexManager × Option DBError :=
  imUpdate 32 imX.1 [KVal.vstr "X"] (Val.rowv rowX) [KVal.vstr "Y"] (Val.rowv rowY)

/-- The by-name secondary index declared unique, after inserting rowX. -/
def imU1 : IndexManager × Option DBError :=
  imInsert 32 (newIndexManager byNameUniqueDef) [KVal.vstr "X"] (Val.rowv rowX)

/-- ... and then a second row with an equal key. -/
def imU2 : IndexManager × Option DBError :=
  imInsert 32 imU1.1 [KVal.vstr "X"] (Val.rowv rowX2)

/-- A fresh trigram inverted index holding one document. -/
def ftOne : InvertedIndex := addDocument (newInvertedIndex 3) "1" "hello world"

/-- The same on-disk state with a cold cache: the collection handle was
re-opened between the insert and the delete. -/
def ftOneCold : InvertedIndex := { ftOne with cache := [] }

/-! ## Helper lemmas: the string order -/

theorem charListLt_irrefl (l : List Char) : charListLt l l = false := by
  induction l with
  | nil => rfl
  | cons a as ih => simp [charListLt, ih]

theorem charListLt_cons (a b : Char) (as bs : List Char) :
    charListLt (a :: as) (b :: bs) =
      (if a.toNat < b.toNat then true
       else if b.toNat < a.toNat then false else charListLt as bs) := rfl

theorem char_eq_of_toNat_eq {a b : Char} (h : a.toNat = b.toNat) : a = b :=
  Char.ext (UInt32.ext h)

theorem charListLt_asymm :
    ∀ {a b : List Char}, charListLt a b = true → charListLt b a = false
  | [], [], h => by simp [charListLt] at h
  | [], _ :: _, _ => rfl
  | _ :: _, [], h => by simp [charListLt] at h
  | a :: as, b :: bs, h => by
    rw [charListLt_cons] at h ⊢
    rcases Nat.lt_trichotomy a.toNat b.toNat with hlt | heq | hgt
    · rw [if_neg (by omega), if_pos hlt]
    · rw [if_neg (by omega), if_neg (by omega)] at h ⊢
      exact charListLt_asymm h
    · rw [if_neg (by omega), if_pos hgt] at h
      simp at h

theorem charListLt_eq_of_not :
    ∀ {a b : List Char}, charListLt a b = false → charListLt b a = false → a = b
  | [], [], _, _ => rfl
  | [], _ :: _, h, _ => by simp [charListLt] at h
  | _ :: _, [], _, h => by simp [charListLt] at h
  | a :: as, b :: bs, h, h2 => by
    rw [charListLt_cons] at h h2
    rcases Nat.lt_trichotomy a.toNat b.toNat with hlt | heq | hgt
    · rw [if_pos hlt] at h; simp at h
    · rw [if_neg (by omega), if_neg (by omega)] at h
      rw [if_neg (by omega), if_neg (by omega)] at h2
      rw [char_eq_of_toNat_eq heq, charListLt_eq_of_not h h2]
    · rw [if_pos hgt] at h2; simp at h2

theorem charListLt_trans :
    ∀ {a b c : List Char}, charListLt a b = true → charListLt b c = true →
      charListLt a c = true
  | [], _ :: _, _ :: _, _, _ => rfl
  | [], b, [], _, h2 => by cases b <;> simp [charListLt] at h2
  | _ :: _, [], _, h1, _ => by simp [charListLt] at h1
  | _ :: _, _ :: _, [], _, h2 => by simp [charListLt] at h2
  | a :: as, b :: bs, c :: cs, h1, h2 => by
    rw [charListLt_cons] at h1 h2 ⊢
    rcases Nat.lt_trichotomy a.toNat b.toNat with hab | hab | hab
    · rcases Nat.lt_trichotomy b.toNat c.toNat with hbc | hbc | hbc
      · rw [if_pos (by omega)]
      · rw [if_pos (by omega)]
      · rw [if_neg (by omega), if_pos hbc] at h2; simp at h2
    · rw [if_neg (by omega), if_neg (by omega)] at h1
      rcases Nat.lt_trichotomy b.toNat c.toNat with hbc | hbc | hbc
      · rw [if_pos (by omega)]
      · rw [if_neg (by omega), if_neg (by omega)] at h2 ⊢
        exact charListLt_trans h1 h2
      · rw [if_neg (by omega), if_pos hbc] at h2; simp at h2
    · rw [if_neg (by omega), if_pos hab] at h1; simp at h1

theorem strLt_irrefl (s : String) : strLt s s = false := charListLt_irrefl _

/-! ## Helper lemmas: component comparison -/

theorem compareComponent_self (x : KVal) : compareComponent x x = none := by
  cases x <;>
    simp [compareComponent, strLt, charListLt_irrefl]

theorem compareComponent_num (x y : KVal) (hx : kindOf x = some .num)
    (hy : kindOf y = some .num) :
    compareComponent x y =
      (if ratVal x < ratVal y then some (-1)
       else if ratVal y < ratVal x then some 1 else none) := by
  cases x <;> cases y <;> simp_all [kindOf, compareComponent, ratVal, Int.cast_lt]

theorem compareComponent_str (x y : KVal) (hx : kindOf x = some .str)
    (hy : kindOf y = some .str) :
    compareComponent x y =
      (if strLt (strVal x) (strVal y) then some (-1)
       else if strLt (strVal y) (strVal x) then some 1 else none) := by
  cases x <;> cases y <;> simp_all [kindOf, compareComponent, strVal]

/-! ## Helper lemmas: composite key comparison as an order -/

theorem compareKeys_self (k : Key) : compareKeys k k = 0 := by
  induction k with
  | nil => rfl
  | cons x xs ih =>
    simp only [compareKeys, compareKeysAux, compareComponent_self]
    exact ih

theorem compareKeys_self_append (a b : Key) :
    compareKeys a (a ++ b) = -(b.length : Int) := by
  induction a with
  | nil => simp [compareKeys, compareKeysAux]
  | cons x xs ih =>
    simp only [compareKeys, List.cons_append, compareKeysAux,
      compareComponent_self] at ih ⊢
    exact ih

theorem shaped_nil {k : Key} (h : Shaped [] k) : k = [] := by
  cases k with
  | nil => rfl
  | cons x xs => simp [Shaped] at h

theorem shaped_cons {κ : KKind} {sig : List KKind} {k : Key}
    (h : Shaped (κ :: sig) k) :
    ∃ x xs, k = x :: xs ∧ kindOf x = some κ ∧ Shaped sig xs := by
  cases k with
  | nil => simp [Shaped] at h
  | cons x xs =>
    simp only [Shaped, List.map_cons, List.cons.injEq] at h
    exact ⟨x, xs, rfl, h.1, h.2⟩

theorem ccnum_lt_iff (x y : KVal) (hx : kindOf x = some .num)
    (hy : kindOf y = some .num) :
    compareComponent x y = some (-1) ↔ ratVal x < ratVal y := by
  rw [compareComponent_num x y hx hy]
  split_ifs with h1 h2 <;> simp_all

theorem ccnum_none_iff (x y : KVal) (hx : kindOf x = some .num)
    (hy : kindOf y = some .num) :
    compareComponent x y = none ↔ ratVal x = ratVal y := by
  rw [compareComponent_num x y hx hy]
  split_ifs with h1 h2
  · constructor
    · intro h; cases h
    · intro h; exact absurd h (ne_of_lt h1)
  · constructor
    · intro h; cases h
    · intro h; exact absurd h.symm (ne_of_lt h2)
  · constructor
    · intro _; exact le_antisymm (not_lt.mp h2) (not_lt.mp h1)
    · intro _; rfl

theorem ccstr_lt_iff (x y : KVal) (hx : kindOf x = some .str)
    (hy : kindOf y = some .str) :
    compareComponent x y = some (-1) ↔ strLt (strVal x) (strVal y) = true := by
  rw [compareComponent_str x y hx hy]
  split_ifs with h1 h2 <;> simp_all

theorem ccstr_none_iff (x y : KVal) (hx : kindOf x = some .str)
    (hy : kindOf y = some .str) :
    compareComponent x y = none ↔ (strVal x).data = (strVal y).data := by
  rw [compareComponent_str x y hx hy]
  split_ifs with h1 h2
  · constructor
    · intro h; cases h
    · intro h
      simp only [strLt, h, charListLt_irrefl] at h1
      exact Bool.noConfusion h1
  · constructor
    · intro h; cases h
    · intro h
      simp only [strLt, h, charListLt_irrefl] at h2
      exact Bool.noConfusion h2
  · constructor
    · intro _
      exact charListLt_eq_of_not (by simpa using h1) (by simpa using h2)
    · intro _; rfl

theorem ccnum_gt_iff (x y : KVal) (hx : kindOf x = some .num)
    (hy : kindOf y = some .num) :
    compareComponent x y = some 1 ↔ ratVal y < ratVal x := by
  rw [compareComponent_num x y hx hy]
  split_ifs with h1 h2
  · constructor
    · intro h; cases h
    · intro h; exact absurd h1 (by linarith)
  · constructor
    · intro _; exact h2
    · intro _; rfl
  · constructor
    · intro h; cases h
    · intro h; exact absurd h h2

theorem ccstr_gt_iff (x y : KVal) (hx : kindOf x = some .str)
    (hy : kindOf y = some .str) :
    compareComponent x y = some 1 ↔ strLt (strVal y) (strVal x) = true := by
  rw [compareComponent_str x y hx hy]
  split_ifs with h1 h2
  · constructor
    · intro h; cases h
    · intro h
      rw [show strLt (strVal x) (strVal y) = false from charListLt_asymm h] at h1
      exact Bool.noConfusion h1
  · constructor
    · intro _; exact h2
    · intro _; rfl
  · constructor
    · intro h; cases h
    · intro h; exact absurd h h2

theorem compareComponent_cases (x y : KVal) (κ : KKind)
    (hx : kindOf x = some κ) (hy : kindOf y = some κ) :
    compareComponent x y = some (-1) ∨ compareComponent x y = some 1 ∨
      compareComponent x y = none := by
  cases κ
  · rw [compareComponent_num x y hx hy]
    split_ifs <;> simp
  · rw [compareComponent_str x y hx hy]
    split_ifs <;> simp

theorem compareComponent_flip (x y : KVal) (κ : KKind)
    (hx : kindOf x = some κ) (hy : kindOf y = some κ) :
    compareComponent y x = (compareComponent x y).map (fun r => -r) := by
  cases κ
  · rw [compareComponent_num x y hx hy, compareComponent_num y x hy hx]
    rcases lt_trichotomy (ratVal x) (ratVal y) with h | h | h
    · rw [if_neg (by linarith), if_pos h, if_pos h]; rfl
    · rw [h]; simp
    · rw [if_pos h, if_neg (by linarith), if_pos h]; rfl
  · rw [compareComponent_str x y hx hy, compareComponent_str y x hy hx]
    by_cases h1 : strLt (strVal x) (strVal y) = true
    · rw [if_pos h1, if_neg (by simp [strLt] at h1 ⊢; exact charListLt_asymm h1),
        if_pos h1]
      rfl
    · by_cases h2 : strLt (strVal y) (strVal x) = true
      · rw [if_pos h2, if_neg h1, if_pos h2]; rfl
      · rw [if_neg h2, if_neg h1, if_neg h1, if_neg h2]; rfl

theorem compareKeys_flip (sig : List KKind) :
    ∀ a b : Key, Shaped sig a → Shaped sig b →
      compareKeys b a = -(compareKeys a b) := by
  induction sig with
  | nil =>
    intro a b ha hb
    rw [shaped_nil ha, shaped_nil hb]
    rfl
  | cons κ sig ih =>
    intro a b ha hb
    obtain ⟨x, xs, rfl, hx, hxs⟩ := shaped_cons ha
    obtain ⟨y, ys, rfl, hy, hys⟩ := shaped_cons hb
    show compareKeysAux (y :: ys) (x :: xs) = -compareKeysAux (x :: xs) (y :: ys)
    have flipxy := compareComponent_flip x y κ hx hy
    simp only [compareKeysAux]
    rcases compareComponent_cases x y κ hx hy with h | h | h <;>
      rw [h] at flipxy <;>
      simp only [Option.map_some', Option.map_none'] at flipxy <;>
      (rw [h, flipxy]; try norm_num)
    have := ih xs ys hxs hys
    simpa [compareKeys] using this

/-- The component-level composition facts used by the transitivity of the
key order, for two components of one kind. -/
theorem compareComponent_compose (x y z : KVal) (κ : KKind)
    (hx : kindOf x = some κ) (hy : kindOf y = some κ) (hz : kindOf z = some κ) :
    (compareComponent x y = some (-1) → compareComponent y z = some (-1) →
        compareComponent x z = some (-1)) ∧
    (compareComponent x y = none → compareComponent y z = some (-1) →
        compareComponent x z = some (-1)) ∧
    (compareComponent x y = some (-1) → compareComponent y z = none →
        compareComponent x z = some (-1)) ∧
    (compareComponent x y = none → compareComponent y z = none →
        compareComponent x z = none) := by
  cases κ
  · rw [ccnum_lt_iff x y hx hy, ccnum_lt_iff y z hy hz, ccnum_lt_iff x z hx hz,
      ccnum_none_iff x y hx hy, ccnum_none_iff y z hy hz,
      ccnum_none_iff x z hx hz]
    refine ⟨fun h1 h2 => lt_trans h1 h2, fun h1 h2 => ?_, fun h1 h2 => ?_,
      fun h1 h2 => h1.trans h2⟩
    · rw [h1]; exact h2
    · rw [← h2]; exact h1
  · rw [ccstr_lt_iff x y hx hy, ccstr_lt_iff y z hy hz, ccstr_lt_iff x z hx hz,
      ccstr_none_iff x y hx hy, ccstr_none_iff y z hy hz,
      ccstr_none_iff x z hx hz]
    simp only [strLt]
    refine ⟨fun h1 h2 => charListLt_trans h1 h2, fun h1 h2 => ?_,
      fun h1 h2 => ?_, fun h1 h2 => h1.trans h2⟩
    · rw [h1]; exact h2
    · rw [← h2]; exact h1

/-- Transitivity of the key comparison on keys of one signature, in the
three combinations used below. -/
theorem compareKeys_trans (sig : List KKind) :
    ∀ a b c : Key, Shaped sig a → Shaped sig b → Shaped sig c →
      (compareKeys a b ≤ 0 → compareKeys b c ≤ 0 → compareKeys a c ≤ 0) ∧
      (compareKeys a b ≤ 0 → compareKeys b c < 0 → compareKeys a c < 0) ∧
      (compareKeys a b < 0 → compareKeys b c ≤ 0 → compareKeys a c < 0) := by
  induction sig with
  | nil =>
    intro a b c ha hb hc
    rw [shaped_nil ha, shaped_nil hb, shaped_nil hc]
    refine ⟨fun _ _ => le_refl 0, fun _ h => absurd h (by simp [compareKeys, compareKeysAux]),
      fun h _ => absurd h (by simp [compareKeys, compareKeysAux])⟩
  | cons κ sig ih =>
    intro a b c ha hb hc
    obtain ⟨x, xs, rfl, hx, hxs⟩ := shaped_cons ha
    obtain ⟨y, ys, rfl, hy, hys⟩ := shaped_cons hb
    obtain ⟨z, zs, rfl, hz, hzs⟩ := shaped_cons hc
    obtain ⟨cxy1, cxy2, cxy3, cxy4⟩ := compareComponent_compose x y z κ hx hy hz
    have flipxy := compareComponent_flip x y κ hx hy
    show
      (compareKeysAux (x :: xs) (y :: ys) ≤ 0 →
        compareKeysAux (y :: ys) (z :: zs) ≤ 0 →
        compareKeysAux (x :: xs) (z :: zs) ≤ 0) ∧
      (compareKeysAux (x :: xs) (y :: ys) ≤ 0 →
        compareKeysAux (y :: ys) (z :: zs) < 0 →
        compareKeysAux (x :: xs) (z :: zs) < 0) ∧
      (compareKeysAux (x :: xs) (y :: ys) < 0 →
        compareKeysAux (y :: ys) (z :: zs) ≤ 0 →
        compareKeysAux (x :: xs) (z :: zs) < 0)
    simp only [compareKeysAux]
    rcases compareComponent_cases x y κ hx hy with hxy | hxy | hxy <;>
      rcases compareComponent_cases y z κ hy hz with hyz | hyz | hyz <;>
      rw [hxy, hyz]
    · rw [cxy1 hxy hyz]
      exact ⟨fun _ _ => by norm_num, fun _ _ => by norm_num, fun _ _ => by norm_num⟩
    · exact ⟨fun _ h => absurd h (by norm_num), fun _ h => absurd h (by norm_num),
        fun _ h => absurd h (by norm_num)⟩
    · rw [cxy3 hxy hyz]
      exact ⟨fun _ _ => by norm_num, fun _ _ => by norm_num, fun _ _ => by norm_num⟩
    · exact ⟨fun h _ => absurd h (by norm_num), fun h _ => absurd h (by norm_num),
        fun h _ => absurd h (by norm_num)⟩
    · exact ⟨fun h _ => absurd h (by norm_num), fun h _ => absurd h (by norm_num),
        fun h _ => absurd h (by norm_num)⟩
    · exact ⟨fun h _ => absurd h (by norm_num), fun h _ => absurd h (by norm_num),
        fun h _ => absurd h (by norm_num)⟩
    · rw [cxy2 hxy hyz]
      exact ⟨fun _ _ => by norm_num, fun _ _ => by norm_num, fun _ _ => by norm_num⟩
    · exact ⟨fun _ h => absurd h (by norm_num), fun _ h => absurd h (by norm_num),
        fun _ h => absurd h (by norm_num)⟩
    · rw [cxy4 hxy hyz]
      exact ih xs ys zs hxs hys hzs

/-! ## Helper lemmas: stores and scan positions -/

theorem storeGet_storeSet_self (st : Store) (n : BTreeNode) :
    storeGet (storeSet st n) n.id = some n := by
  induction st with
  | nil => simp [storeSet, storeGet]
  | cons p rest ih =>
    obtain ⟨k, m⟩ := p
    by_cases h : k = n.id
    · subst h; simp [storeSet, storeGet]
    · simp [storeSet, storeGet, h, ih]

theorem storeGet_storeSet_ne (st : Store) (n : BTreeNode) (id : String)
    (h : id ≠ n.id) : storeGet (storeSet st n) id = storeGet st id := by
  induction st with
  | nil =>
    simp only [storeSet, storeGet]
    rw [if_neg (by simpa using Ne.symm h)]
  | cons p rest ih =>
    obtain ⟨k, m⟩ := p
    by_cases hk : k = n.id
    · subst hk
      simp only [storeSet, beq_self_eq_true, if_true, storeGet]
      rw [if_neg (by simpa using Ne.symm h), if_neg (by simpa using Ne.symm h)]
    · by_cases hk2 : k = id
      · subst hk2
        simp [storeSet, storeGet, hk]
      · simp [storeSet, storeGet, hk, hk2, ih]

theorem posGE_le_length (key : Key) (l : List Key) : posGE key l ≤ l.length := by
  induction l with
  | nil => simp [posGE]
  | cons s rest ih =>
    simp only [posGE, List.length_cons]
    split <;> omega

theorem posGT_le_length (key : Key) (l : List Key) : posGT key l ≤ l.length := by
  induction l with
  | nil => simp [posGT]
  | cons s rest ih =>
    simp only [posGT, List.length_cons]
    split <;> omega

/-! ## The string order against the standard lexicographic order -/

theorem charListLt_iff_lex :
    ∀ a b : List Char,
      charListLt a b = true ↔
        List.Lex (fun c d : Char => c.toNat < d.toNat) a b
  | [], [] => by
    constructor
    · intro h; exact absurd h (by simp [charListLt])
    · intro h; cases h
  | [], b :: bs => by
    constructor
    · intro _; exact List.Lex.nil
    · intro _; rfl
  | a :: as, [] => by
    constructor
    · intro h; exact absurd h (by simp [charListLt])
    · intro h; cases h
  | a :: as, b :: bs => by
    rw [charListLt_cons]
    rcases Nat.lt_trichotomy a.toNat b.toNat with hab | hab | hab
    · rw [if_pos hab]
      constructor
      · intro _; exact List.Lex.rel hab
      · intro _; rfl
    · obtain rfl : a = b := char_eq_of_toNat_eq hab
      rw [if_neg (by omega), if_neg (by omega)]
      rw [charListLt_iff_lex as bs]
      constructor
      · exact fun h => List.Lex.cons h
      · intro h
        cases h with
        | cons h => exact h
        | rel h => omega
    · rw [if_neg (by omega), if_pos hab]
      constructor
      · intro h; exact Bool.noConfusion h
      · intro h
        cases h with
        | cons h => omega
        | rel h => omega

/-! ## Claim C8: the composite-key comparison -/

/-- Claim C8, counterexample.  The claim requires a null component to
compare less than any non-null component and mixed-type components to fall
back to textual comparison.  The code disagrees on both: for nil versus
int 5 the textual fallback compares the angle-bracketed nil marker against
the digit and returns 1 (nil is larger, not smaller), and for int 1 versus
string a the inner type switch matches neither int nor float64, falls
through without deciding, and the comparison returns 0 (equal) instead of
the textual-comparison result 1. -/
theorem compareKeys_c8_counterexample :
    compareKeys [KVal.vnil] [KVal.vint 5] = 1 ∧
    compareKeys [KVal.vint 1] [KVal.vstr "a"] = 0 := by decide

/-- Claim C8, amended: comparison is lexicographic by component and a
strict prefix compares less; int and float components compare numerically,
also across the two types; string components compare lexicographically
(code-point order, equal to byte order of the UTF-8 encodings); but a
component pair of mixed kinds with an int, float or string on the left is
skipped as equal rather than compared textually, and the textual fallback
(which applies only when the left component is of another type, such as
null) makes null compare greater than, not less than, small numerals. -/
theorem compareKeys_c8_amended :
    (∀ a b : Key, b ≠ [] → compareKeys a (a ++ b) < 0) ∧
    (∀ x y : KVal, kindOf x = some .num → kindOf y = some .num →
      ((compareKeys [x] [y] < 0 ↔ ratVal x < ratVal y) ∧
       (compareKeys [x] [y] = 0 ↔ ratVal x = ratVal y))) ∧
    (∀ s t : String,
      (compareKeys [KVal.vstr s] [KVal.vstr t] < 0 ↔
        List.Lex (fun c d : Char => c.toNat < d.toNat) s.data t.data) ∧
      (compareKeys [KVal.vstr s] [KVal.vstr t] = 0 ↔ s.data = t.data)) ∧
    (∀ (i : Int) (s : String), compareKeys [KVal.vint i] [KVal.vstr s] = 0) := by
  refine ⟨?_, ?_, ?_, ?_⟩
  · intro a b hb
    rw [compareKeys_self_append]
    cases b with
    | nil => exact absurd rfl hb
    | cons x xs => simp only [List.length_cons]; omega
  · intro x y hx hy
    have hlt := ccnum_lt_iff x y hx hy
    have hgt := ccnum_gt_iff x y hx hy
    have hnone := ccnum_none_iff x y hx hy
    have hone : compareKeys [x] [y] =
        (match compareComponent x y with | some r => r | none => 0) := rfl
    constructor
    · rw [hone]
      rcases compareComponent_cases x y .num hx hy with h | h | h <;> rw [h]
      · exact iff_of_true (by norm_num) (hlt.mp h)
      · exact iff_of_false (by norm_num) (by have := hgt.mp h; exact not_lt.mpr (le_of_lt this))
      · exact iff_of_false (by norm_num) (by rw [hnone.mp h]; exact lt_irrefl _)
    · rw [hone]
      rcases compareComponent_cases x y .num hx hy with h | h | h <;> rw [h]
      · exact iff_of_false (by norm_num)
          (fun hc => by rw [hnone.mpr hc] at h; cases h)
      · exact iff_of_false (by norm_num)
          (fun hc => by rw [hnone.mpr hc] at h; cases h)
      · exact iff_of_true rfl (hnone.mp h)
  · intro s t
    have hx : kindOf (KVal.vstr s) = some .str := rfl
    have hy : kindOf (KVal.vstr t) = some .str := rfl
    have hlt := ccstr_lt_iff _ _ hx hy
    have hgt := ccstr_gt_iff _ _ hx hy
    have hnone := ccstr_none_iff _ _ hx hy
    have hlex := charListLt_iff_lex s.data t.data
    have hlexr := charListLt_iff_lex t.data s.data
    have hone : compareKeys [KVal.vstr s] [KVal.vstr t] =
        (match compareComponent (KVal.vstr s) (KVal.vstr t) with
         | some r => r | none => 0) := rfl
    constructor
    · rw [hone]
      rcases compareComponent_cases _ _ .str hx hy with h | h | h <;> rw [h]
      · exact iff_of_true (by norm_num) (hlex.mp (hlt.mp h))
      · refine iff_of_false (by norm_num) (fun hc => ?_)
        have h1 : charListLt t.data s.data = true := hgt.mp h
        have h2 : charListLt s.data t.data = true := hlex.mpr hc
        rw [charListLt_asymm h2] at h1
        exact Bool.noConfusion h1
      · refine iff_of_false (by norm_num) (fun hc => ?_)
        have h2 : charListLt s.data t.data = true := hlex.mpr hc
        have h3 : (strVal (KVal.vstr s)).data = (strVal (KVal.vstr t)).data :=
          hnone.mp h
        rw [show s.data = t.data from h3, charListLt_irrefl] at h2
        exact Bool.noConfusion h2
    · rw [hone]
      rcases compareComponent_cases _ _ .str hx hy with h | h | h <;> rw [h]
      · exact iff_of_false (by norm_num)
          (fun hc => by rw [hnone.mpr hc] at h; cases h)
      · exact iff_of_false (by norm_num)
          (fun hc => by rw [hnone.mpr hc] at h; cases h)
      · exact iff_of_true rfl (hnone.mp h)
  · intro i s
    rfl

/-- Claim C8, amended, witness. -/
theorem compareKeys_c8_amended_witness :
    compareKeys [KVal.vint 7] [KVal.vint 7, KVal.vstr "x"] < 0 ∧
    (compareKeys [KVal.vint 3] [KVal.vfloat (7 / 2)] < 0 ↔
      ratVal (KVal.vint 3) < ratVal (KVal.vfloat (7 / 2))) ∧
    (compareKeys [KVal.vstr "ab"] [KVal.vstr "b"] < 0 ↔
      List.Lex (fun c d : Char => c.toNat < d.toNat) "ab".data "b".data) :=
  ⟨compareKeys_c8_amended.1 [KVal.vint 7] [KVal.vstr "x"] (by simp),
   (compareKeys_c8_amended.2.1 (KVal.vint 3) (KVal.vfloat (7 / 2)) rfl rfl).1,
   (compareKeys_c8_amended.2.2.1 "ab" "b").1⟩

/-! ## Claim C6: the n-gram tokenizer -/

/-- Claim C6 (confirmed): NGram tokenizes per the spec rules, matching the
scenario-5 table: the basic ASCII trigram table, stop-word dropping, Han
bigrams regardless of n, the single Han character, and the empty results
for non-positive n, empty input and stop-word-only input. -/
theorem ngram_c6_table :
    NGram "hello world" 3 = ["hel", "ell", "llo", "wor", "orl", "rld"] ∧
    NGram "go is fun" 3 = ["go", "fun"] ∧
    (∀ n : Int, 1 ≤ n → NGram "你好世界" n = ["你好", "好世", "世界"]) ∧
    NGram "我" 3 = ["我"] ∧
    (∀ (s : String) (n : Int), n ≤ 0 → NGram s n = []) ∧
    (∀ n : Int, NGram "" n = []) ∧
    (∀ w ∈ englishStopWords, NGram w 3 = []) := by
  refine ⟨by decide, by decide, ?_, by decide, ?_, ?_, by decide⟩
  · intro n hn
    unfold NGram
    rw [if_neg (by omega)]
    rfl
  · intro s n hn
    unfold NGram
    rw [if_pos hn]
  · intro n
    by_cases hn : n ≤ 0
    · unfold NGram
      rw [if_pos hn]
    · unfold NGram
      rw [if_neg hn]
      rfl

/-- Claim C6, witness. -/
theorem ngram_c6_table_witness :
    NGram "你好世界" 7 = ["你好", "好世", "世界"] ∧
    NGram "abc" (-2) = [] ∧
    NGram "" 5 = [] :=
  ⟨ngram_c6_table.2.2.1 7 (by norm_num),
   ngram_c6_table.2.2.2.2.1 "abc" (-2) (by norm_num),
   ngram_c6_table.2.2.2.2.2.1 5⟩

/-! ## Claim C2: the insert/search round trip -/

/-- Claim C2 (code bug): the descent rule of Insert (strictly-greater) and
of Search (greater-or-equal) disagree on keys equal to an internal
separator, so an inserted record can be unfindable.  Concretely, on a
unique page-size-3 tree: Insert 1, 2, 3 (leaving separator 2), Delete 2,
then Insert 2 — every operation succeeds, the full scan shows the
re-inserted record stored in the left leaf, yet Search(2) descends into
the right leaf and returns the empty list instead of the record. -/
theorem roundtrip_c2_bug :
    treeU3.2 = none ∧ treeU3d.2 = none ∧ treeU3di.2 = none ∧
    searchTree 32 treeU3di.1 none =
      Except.ok [rowOf 1 "one", rowOf 2 "twoAgain", rowOf 3 "three"] ∧
    searchTree 32 treeU3di.1 (some (intKey 2)) = Except.ok [] := by decide

/-! ## Claim C4: delete removes all equal keys -/

/-- Claim C4 (code bug): Delete removes equal keys only from the single
leaf its descent reaches, although its own documentation promises to
remove all records with the key.  On a non-unique page-size-2 tree holding
key 2 three times (spread over three leaves after splits), the first
Delete(2) succeeds but Search(2) still returns one record, and after a
second Delete(2) — both returning success — Search(2) still returns a
record, refuting both the remove-all part and the stated idempotency
property (two deletions followed by an empty search). -/
theorem delete_all_c4_bug :
    treeN3.2 = none ∧ treeN3d.2 = none ∧ treeN3dd.2 = none ∧
    searchTree 32 treeN3d.1 (some (intKey 2)) = Except.ok [rowOf 2 "C"] ∧
    searchTree 32 treeN3dd.1 (some (intKey 2)) = Except.ok [rowOf 2 "A"] := by
  decide

/-! ## Claim C3: node occupancy and underflow handling -/

/-- Claim C3, counterexample: after three completed inserts into a unique
page-size-3 tree, the non-root leaf n0 holds a single key, below the
claimed minimum of two; and after a further completed Delete(3) the
non-root leaf n1 also holds a single key while its sibling n0 and the root
are untouched — no borrowing or merging happened. -/
theorem node_occupancy_c3_counterexample :
    treeU3.2 = none ∧
    treeU3.1.rootID = "n2" ∧
    (storeGet treeU3.1.store "n0").map (fun n => n.keys.length) = some 1 ∧
    treeU3d3.2 = none ∧
    treeU3d3.1.rootID = "n2" ∧
    (storeGet treeU3d3.1.store "n1").map (fun n => n.keys.length) = some 1 ∧
    storeGet treeU3d3.1.store "n0" = storeGet treeU3.1.store "n0" ∧
    storeGet treeU3d3.1.store "n2" = storeGet treeU3.1.store "n2" ∧
    ((1 : Int) < (3 + 1) / 2) := by decide

/-! ## Claim C9: the split trigger threshold -/

/-- Claim C9, counterexample: on a unique page-size-2 tree, inserting keys
1 and 2 splits on the second insert — the one that brings the leaf to
exactly pageSize keys — leaving a three-node tree whose root is internal
and whose original leaf holds one key, not pageSize keys as the claim
requires of an insert reaching exactly pageSize. -/
theorem split_threshold_c9_counterexample :
    treeP2.2 = none ∧
    treeP2.1.rootID = "n2" ∧
    (storeGet treeP2.1.store "n2").map (fun n => n.type) =
      some NodeType.internal ∧
    (storeGet treeP2.1.store "n0").map (fun n => n.keys.length) = some 1 ∧
    treeP2.1.store.length = 3 := by decide

/-! ## Claim C5: secondary-index update -/

/-- Claim C5, counterexample: updating a record in a secondary index
without changing the extracted key does not delete-then-insert; it
delegates to the trees Update, which rejects non-unique trees, so the
update fails with the unsupported-operation error (and leaves the manager
unchanged) instead of succeeding. -/
theorem secondary_update_c5_counterexample :
    imX.2 = none ∧
    imUpdate 32 imX.1 [KVal.vstr "X"] (Val.rowv rowX) [KVal.vstr "X"]
        (Val.rowv rowX) =
      (imX.1, some DBError.updateNotSupported) := by decide

/-- Claim C5, amended: IndexManager.Update on a secondary index performs
delete-then-insert only when the extracted key changed; when the old and
new keys compare equal it delegates to BTree.Update, which returns the
unsupported-operation error for every non-unique tree, leaving the index
unchanged.  When the key does change (scenario 6), the update succeeds and
searches on the old and new keys return the empty list and the new
projected value respectively. -/
theorem secondary_update_c5_amended :
    (∀ (im : IndexManager) (oldKey newKey : Key) (r1 r2 : Row) (fuel : Nat),
      im.indexDef.isClustered = false → im.bTree.isUniqueKey = false →
      compareKeys oldKey newKey = 0 →
      imUpdate fuel im oldKey (Val.rowv r1) newKey (Val.rowv r2) =
        (im, some DBError.updateNotSupported)) ∧
    imXtoY.2 = none ∧
    imSearch 32 imXtoY.1 (some [KVal.vstr "X"]) = Except.ok [] ∧
    imSearch 32 imXtoY.1 (some [KVal.vstr "Y"]) =
      Except.ok [Val.rowv [("name", KVal.vstr "Y")]] := by
  refine ⟨?_, by decide, by decide, by decide⟩
  intro im oldKey newKey r1 r2 fuel hnc hu hcmp
  unfold imUpdate
  rw [hnc]
  simp only [Bool.false_eq_true, if_false]
  rw [if_neg (by simp [hcmp])]
  unfold updateTree
  rw [hu]
  rfl

/-- Claim C5, amended, witness. -/
theorem secondary_update_c5_amended_witness :
    imUpdate 7 (newIndexManager byNameDef) [KVal.vstr "W"] (Val.rowv rowX)
        [KVal.vstr "W"] (Val.rowv rowY) =
      (newIndexManager byNameDef, some DBError.updateNotSupported) :=
  secondary_update_c5_amended.1 (newIndexManager byNameDef) [KVal.vstr "W"]
    [KVal.vstr "W"] rowX rowY 7 rfl rfl (by decide)

/-! ## Claim C7: full-text insert/delete round trip -/

/-- Claim C7, counterexample: after inserting a document, a full-text
search for one of its n-grams returns its id; but when the posting lists
are not resident in the in-memory cache (the handle was re-opened),
RemoveDocument — which only scans the cache — leaves the on-disk posting
lists untouched, and the search still returns the deleted documents id. -/
theorem fulltext_delete_c7_counterexample :
    (searchIndex ftOne "hello").2 = ["1"] ∧
    (searchIndex (removeDocument ftOneCold "1") "hello").2 = ["1"] := by decide

/-- Claim C7, amended: after an insert, a full-text search for an n-gram
of the document returns its id; a delete removes the id from the posting
lists resident in the cache (so a delete through the same warm handle
makes the search return the empty list), but RemoveDocument on a handle
whose cache is empty is a complete no-op, leaving every on-disk posting
list entry for the document in place. -/
theorem fulltext_delete_c7_amended :
    (∀ (idx : InvertedIndex) (docID : String), idx.cache = [] →
      removeDocument idx docID = idx) ∧
    (searchIndex ftOne "hello").2 = ["1"] ∧
    (searchIndex (removeDocument ftOne "1") "hello").2 = [] := by
  refine ⟨?_, by decide, by decide⟩
  intro idx d hc
  simp [removeDocument, removeDocumentUnsafe, hc]

/-- Claim C7, amended, witness. -/
theorem fulltext_delete_c7_amended_witness :
    removeDocument ftOneCold "1" = ftOneCold :=
  fulltext_delete_c7_amended.1 ftOneCold "1" rfl

/-! ## Claim C10: the unique flag of secondary indexes is not enforced -/

/-- Claim C10 (confirmed): NewIndexManager passes only the IsClustered
flag as the trees uniqueness mode, ignoring the declared IsUnique flag;
consequently a secondary index declared unique accepts a second record
with an equal key without a duplicate-key error and stores both side by
side. -/
theorem secondary_unique_ignored_c10 :
    (∀ d : IndexDefinition,
      (newIndexManager d).bTree.isUniqueKey = d.isClustered) ∧
    imU1.2 = none ∧ imU2.2 = none ∧
    imSearch 32 imU2.1 (some [KVal.vstr "X"]) =
      Except.ok [Val.rowv [("name", KVal.vstr "X")],
                 Val.rowv [("name", KVal.vstr "X")]] := by
  refine ⟨fun d => rfl, by decide, by decide, by decide⟩

/-! ## Claim C3, amended: deletion touches only its descent path -/

theorem saveNode_get_ne (st : Store) (n : BTreeNode) (id : String)
    (h : id ≠ n.id) : storeGet (saveNode st n).1 id = storeGet st id := by
  unfold saveNode
  split
  · exact storeGet_storeSet_ne st _ id h
  · rfl

theorem deleteRecursive_frame :
    ∀ (fuel : Nat) (bt : BTree) (node : BTreeNode) (key : Key) (id : String),
      id ∉ deletePath fuel bt.store node key →
      storeGet (deleteRecursive fuel bt node key).1.store id =
        storeGet bt.store id := by
  intro fuel
  induction fuel with
  | zero => intro bt node key id hid; rfl
  | succ fuel ih =>
    intro bt node key id hid
    simp only [deletePath] at hid
    simp only [deleteRecursive]
    by_cases hleaf : node.isLeaf = true
    · rw [if_pos hleaf] at hid ⊢
      have hne : id ≠ node.id := by
        intro hc
        exact hid (by simp [hc])
      rcases hrm : removeAllEq key node.keys node.values with ⟨ks, vs⟩
      simp only [hrm]
      by_cases hch : ks.length ≠ node.keys.length
      · rw [if_pos hch]
        exact saveNode_get_ne _ _ _ hne
      · rw [if_neg hch]
    · rw [if_neg hleaf] at hid ⊢
      set p : Nat :=
        if posGE key node.keys ≥ node.values.length
        then node.values.length - 1 else posGE key node.keys with hp
      cases hget : node.values.get? p with
      | none =>
        simp only [hget] at hid ⊢
      | some cv =>
        simp only [hget] at hid ⊢
        cases hstr : cv.asStr with
        | none =>
          simp only [hstr] at hid ⊢
        | some cid =>
          simp only [hstr] at hid ⊢
          cases hload : loadNode bt.store cid with
          | error e =>
            simp only [hload] at hid ⊢
          | ok child =>
            simp only [hload] at hid ⊢
            simp only [List.mem_cons, not_or] at hid
            obtain ⟨hne, htail⟩ := hid
            have hrec := ih bt child key id htail
            rcases hdel : deleteRecursive fuel bt child key with
              ⟨bt1, child1, changed, shrink, err⟩
            rw [hdel] at hrec
            cases err with
            | some e => exact hrec
            | none =>
              simp only []
              by_cases hch : (!changed) = true
              · rw [if_pos hch]
                exact hrec
              · rw [if_neg hch]
                by_cases hsh :
                    (shrink && (child1.isLeaf || child1.keys.isEmpty)) = true
                · rw [if_pos hsh]
                  by_cases hkl : p < node.keys.length
                  · rw [if_pos hkl]
                    set node2 : BTreeNode := { node with keys := node.keys.eraseIdx p, values := node.values.eraseIdx p, isDirty := true } with hnode2
                    rcases hsv : saveNode bt1.store node2 with ⟨st2, node3⟩
                    have hst2 : storeGet st2 id = storeGet bt.store id := by
                      have hfst := congrArg Prod.fst hsv
                      simp only at hfst
                      rw [← hfst]
                      exact (saveNode_get_ne _ _ _ (by simpa using hne)).trans hrec
                    repeat' split
                    all_goals exact hst2
                  · rw [if_neg hkl]
                    set node2 : BTreeNode := { node with keys := node.keys, values := node.values.eraseIdx p, isDirty := true } with hnode2
                    rcases hsv : saveNode bt1.store node2 with ⟨st2, node3⟩
                    have hst2 : storeGet st2 id = storeGet bt.store id := by
                      have hfst := congrArg Prod.fst hsv
                      simp only at hfst
                      rw [← hfst]
                      exact (saveNode_get_ne _ _ _ (by simpa using hne)).trans hrec
                    repeat' split
                    all_goals exact hst2
                · rw [if_neg hsh]
                  exact (saveNode_get_ne _ _ _ hne).trans hrec

/-- C3 (amended): the claimed half-full minimum occupancy after deletions is
false - the code has no borrow or merge, as the separate counterexample shows -
but deletion is local in the amended sense: Delete modifies no stored node
outside its root-to-leaf descent path, so every node id off the path maps to
the same stored node before and after the Delete. -/
theorem delete_touches_only_path_c3_amended
    (fuel : Nat) (bt : BTree) (key : Key) (id : String)
    (h : id ∉ deleteTreePath fuel bt key) :
    storeGet (deleteTree fuel bt key).1.store id = storeGet bt.store id := by
  unfold deleteTreePath at h
  unfold deleteTree
  by_cases hr : (bt.rootID == "") = true
  · rw [if_pos hr]
  · rw [if_neg hr] at h ⊢
    cases hload : loadNode bt.store bt.rootID with
    | error e => simp only [hload]
    | ok root =>
      simp only [hload] at h ⊢
      have hframe := deleteRecursive_frame fuel bt root key id h
      rcases hdr : deleteRecursive fuel bt root key with ⟨bt1, root1, ch, sh, err⟩
      rw [hdr] at hframe
      cases err with
      | some e => exact hframe
      | none =>
        simp only []
        split
        · exact hframe
        · exact hframe

theorem delete_touches_only_path_c3_amended_witness :
    "n0" ∉ deleteTreePath 32 treeU3.1 (intKey 3) ∧
    storeGet (deleteTree 32 treeU3.1 (intKey 3)).1.store "n0" =
      storeGet treeU3.1.store "n0" :=
  ⟨by decide,
   delete_touches_only_path_c3_amended 32 treeU3.1 (intKey 3) "n0" (by decide)⟩

theorem countEqRun_le_length (key : Key) (l : List Key) :
    countEqRun key l ≤ l.length := by
  induction l with
  | nil => simp [countEqRun]
  | cons s rest ih =>
    simp only [countEqRun, List.length_cons]
    split <;> omega

theorem str_n_append_ne_empty (s : String) : ("n" ++ s == "") = false := by
  apply beq_eq_false_iff_ne.mpr
  intro h
  have hlen := congrArg String.length h
  rw [String.length_append] at hlen
  have h1 : ("n" : String).length = 1 := rfl
  have h0 : ("" : String).length = 0 := rfl
  omega

theorem storeGet_storeSet_self2 (st : Store) (n : BTreeNode) (id : String)
    (h : n.id = id) : storeGet (storeSet st n) id = some n := by
  rw [← h]
  exact storeGet_storeSet_self st n

theorem insertRecursive_leaf_eval (f : Nat) (bt : BTree) (root : BTreeNode)
    (key : Key) (v : Val)
    (hu : bt.isUniqueKey = false) (hlf : root.isLeaf = true) :
    insertRecursive (f + 1) bt root key v =
      (let pos := posGT key root.keys +
        countEqRun key (root.keys.drop (posGT key root.keys));
       let node1 : BTreeNode := { root with
         keys := root.keys.insertIdx pos key,
         values := root.values.insertIdx pos v, isDirty := true };
       if !node1.isFull then
         ({ bt with store := (saveNode bt.store node1).1 },
          (saveNode bt.store node1).2, none)
       else splitLeaf f bt node1) := by
  simp only [insertRecursive, hlf, if_true, hu, Bool.false_and,
    Bool.false_eq_true, if_false]

set_option maxRecDepth 8192 in
theorem splitLeaf_root_eval (f : Nat) (bt : BTree) (leaf : BTreeNode)
    (hpar : leaf.parent = "") (hnx : leaf.next = "") (hpv : leaf.previous = "")
    (k0 : Key) (ks0 : List Key)
    (hdrop : leaf.keys.drop (leaf.keys.length / 2) = k0 :: ks0) :
    splitLeaf (f + 3) bt leaf =
      ({ bt with
          store := storeSet (storeSet (storeSet bt.store
            { leaf with
              keys := leaf.keys.take (leaf.keys.length / 2),
              values := leaf.values.take (leaf.keys.length / 2),
              next := "n" ++ toString bt.nextID,
              isDirty := false })
            { id := "n" ++ toString bt.nextID,
              type := NodeType.leaf,
              isDirty := false,
              pageSize := bt.pageSize,
              parent := leaf.parent,
              keys := leaf.keys.drop (leaf.keys.length / 2),
              values := leaf.values.drop (leaf.keys.length / 2),
              next := leaf.next,
              previous := leaf.id })
            { id := "n" ++ toString (bt.nextID + 1),
              type := NodeType.internal,
              isDirty := false,
              pageSize := bt.pageSize,
              parent := "",
              keys := [k0],
              values := [Val.str leaf.id, Val.str ("n" ++ toString bt.nextID)],
              next := "",
              previous := "" },
          rootID := "n" ++ toString (bt.nextID + 1),
          nextID := bt.nextID + 2 },
       { leaf with
         keys := leaf.keys.take (leaf.keys.length / 2),
         values := leaf.values.take (leaf.keys.length / 2),
         next := "n" ++ toString bt.nextID,
         isDirty := false,
         parent := "n" ++ toString (bt.nextID + 1) },
       none) := by
  simp only [splitLeaf, genNodeID, hnx, hpar, hpv, saveNode, newBTreeNode,
    walkToLeftmost, gatherChain, headKeys, loadNode, str_n_append_ne_empty,
    storeGet_storeSet_self2, hdrop, List.head?_cons, Bool.false_eq_true,
    if_false, if_true, beq_self_eq_true, bne, Bool.not_true, Bool.not_false,
    bind, Except.bind, List.map_cons, List.map_nil]

set_option maxRecDepth 8192 in
theorem insertTree_leafRoot_noSplit
    (bt : BTree) (n : BTreeNode) (key : Key) (v : Val) (f : Nat)
    (hu : bt.isUniqueKey = false)
    (hroot : bt.rootID ≠ "")
    (hget : storeGet bt.store bt.rootID = some n)
    (hid : n.id = bt.rootID)
    (hleaf : n.type = NodeType.leaf)
    (hlt : (n.keys.length : Int) + 1 < n.pageSize) :
    (insertTree (f + 4) bt key v).2 = none ∧
    (insertTree (f + 4) bt key v).1.rootID = bt.rootID ∧
    (insertTree (f + 4) bt key v).1.nextID = bt.nextID ∧
    ∃ m, storeGet (insertTree (f + 4) bt key v).1.store bt.rootID = some m ∧
      m.type = NodeType.leaf ∧ m.keys.length = n.keys.length + 1 := by
  have hroot2 : (bt.rootID == "") = false := beq_eq_false_iff_ne.mpr hroot
  have hload : loadNode bt.store bt.rootID =
      Except.ok { n with isDirty := false } := by
    unfold loadNode
    rw [hget]
  have hlf : ({ n with isDirty := false } : BTreeNode).isLeaf = true := by
    simp [BTreeNode.isLeaf, hleaf]
  have hP : posGT key n.keys +
      countEqRun key (n.keys.drop (posGT key n.keys)) ≤ n.keys.length := by
    have h1 := posGT_le_length key n.keys
    have h2 := countEqRun_le_length key (n.keys.drop (posGT key n.keys))
    rw [List.length_drop] at h2
    omega
  have hlen1 : (n.keys.insertIdx (posGT key n.keys +
      countEqRun key (List.drop (posGT key n.keys) n.keys)) key).length =
      n.keys.length + 1 := List.length_insertIdx _ _ hP
  have hrec := insertRecursive_leaf_eval (f + 3) bt
    { n with isDirty := false } key v hu hlf
  rw [show f + 3 + 1 = f + 4 from rfl] at hrec
  simp only [] at hrec
  have hfull : ({
      id := n.id,
      type := n.type,
      isDirty := true,
      pageSize := n.pageSize,
      parent := n.parent,
      keys := List.insertIdx (posGT key n.keys + countEqRun key (List.drop (posGT key n.keys) n.keys)) key n.keys,
      values := List.insertIdx (posGT key n.keys + countEqRun key (List.drop (posGT key n.keys) n.keys)) v n.values,
      next := n.next,
      previous := n.previous } : BTreeNode).isFull = false := by
    simp only [BTreeNode.isFull]
    rw [hlen1]
    rw [decide_eq_false_iff_not]
    push_cast
    omega
  rw [hfull] at hrec
  simp only [Bool.not_false, if_true, saveNode, if_pos] at hrec
  have hins : insertTree (f + 4) bt key v = ({ bt with store := storeSet bt.store { id := n.id, type := n.type, isDirty := false, pageSize := n.pageSize, parent := n.parent, keys := List.insertIdx (posGT key n.keys + countEqRun key (List.drop (posGT key n.keys) n.keys)) key n.keys, values := List.insertIdx (posGT key n.keys + countEqRun key (List.drop (posGT key n.keys) n.keys)) v n.values, next := n.next, previous := n.previous } }, none) := by
    simp only [insertTree, hu, Bool.false_and, Bool.false_eq_true, if_false,
      insertTreeRoot, hroot2, hload, hrec]
  rw [hins]
  exact ⟨rfl, rfl, rfl, _, storeGet_storeSet_self2 _ _ _ hid, hleaf, hlen1⟩

set_option maxRecDepth 8192 in
theorem insertTree_leafRoot_split
    (bt : BTree) (n : BTreeNode) (key : Key) (v : Val) (f : Nat)
    (hu : bt.isUniqueKey = false)
    (hroot : bt.rootID ≠ "")
    (hget : storeGet bt.store bt.rootID = some n)
    (hid : n.id = bt.rootID)
    (hleaf : n.type = NodeType.leaf)
    (hge : (n.keys.length : Int) + 1 ≥ n.pageSize)
    (hpar : n.parent = "") (hnx : n.next = "") (hpv : n.previous = "")
    (hf1 : bt.rootID ≠ "n" ++ toString bt.nextID)
    (hf2 : bt.rootID ≠ "n" ++ toString (bt.nextID + 1))
    (hf3 : ("n" ++ toString bt.nextID : String) ≠ "n" ++ toString (bt.nextID + 1)) :
    (insertTree (f + 4) bt key v).2 = none ∧
    (insertTree (f + 4) bt key v).1.rootID = "n" ++ toString (bt.nextID + 1) ∧
    (insertTree (f + 4) bt key v).1.nextID = bt.nextID + 2 ∧
    (∃ r, storeGet (insertTree (f + 4) bt key v).1.store ("n" ++ toString (bt.nextID + 1)) = some r ∧
      r.type = NodeType.internal ∧ r.keys.length = 1 ∧
      r.values = [Val.str bt.rootID, Val.str ("n" ++ toString bt.nextID)]) ∧
    (∃ l, storeGet (insertTree (f + 4) bt key v).1.store bt.rootID = some l ∧
      l.type = NodeType.leaf ∧ l.keys.length = (n.keys.length + 1) / 2) ∧
    (∃ r2, storeGet (insertTree (f + 4) bt key v).1.store ("n" ++ toString bt.nextID) = some r2 ∧
      r2.type = NodeType.leaf ∧
      r2.keys.length = n.keys.length + 1 - (n.keys.length + 1) / 2) := by
  have hroot2 : (bt.rootID == "") = false := beq_eq_false_iff_ne.mpr hroot
  have hload : loadNode bt.store bt.rootID =
      Except.ok { n with isDirty := false } := by
    unfold loadNode
    rw [hget]
  have hlf : ({ n with isDirty := false } : BTreeNode).isLeaf = true := by
    simp [BTreeNode.isLeaf, hleaf]
  have hP : posGT key n.keys +
      countEqRun key (n.keys.drop (posGT key n.keys)) ≤ n.keys.length := by
    have h1 := posGT_le_length key n.keys
    have h2 := countEqRun_le_length key (n.keys.drop (posGT key n.keys))
    rw [List.length_drop] at h2
    omega
  have hlen1 : (n.keys.insertIdx (posGT key n.keys +
      countEqRun key (List.drop (posGT key n.keys) n.keys)) key).length =
      n.keys.length + 1 := List.length_insertIdx _ _ hP
  have hrec := insertRecursive_leaf_eval (f + 3) bt
    { n with isDirty := false } key v hu hlf
  rw [show f + 3 + 1 = f + 4 from rfl] at hrec
  simp only [] at hrec
  have hfull : ({
      id := n.id,
      type := n.type,
      isDirty := true,
      pageSize := n.pageSize,
      parent := n.parent,
      keys := List.insertIdx (posGT key n.keys + countEqRun key (List.drop (posGT key n.keys) n.keys)) key n.keys,
      values := List.insertIdx (posGT key n.keys + countEqRun key (List.drop (posGT key n.keys) n.keys)) v n.values,
      next := n.next,
      previous := n.previous } : BTreeNode).isFull = true := by
    simp only [BTreeNode.isFull]
    rw [hlen1]
    rw [decide_eq_true_iff]
    push_cast
    omega
  rw [hfull] at hrec
  simp only [Bool.not_true, Bool.false_eq_true, if_false] at hrec
  have hne2 : List.drop ((List.insertIdx (posGT key n.keys + countEqRun key (List.drop (posGT key n.keys) n.keys)) key n.keys).length / 2) (List.insertIdx (posGT key n.keys + countEqRun key (List.drop (posGT key n.keys) n.keys)) key n.keys) ≠ [] := by
    apply List.ne_nil_of_length_pos
    rw [List.length_drop, hlen1]
    omega
  obtain ⟨k0, ks0, hdrop⟩ := List.exists_cons_of_ne_nil hne2
  have hsplit := splitLeaf_root_eval f bt ({
      id := n.id,
      type := n.type,
      isDirty := true,
      pageSize := n.pageSize,
      parent := n.parent,
      keys := List.insertIdx (posGT key n.keys + countEqRun key (List.drop (posGT key n.keys) n.keys)) key n.keys,
      values := List.insertIdx (posGT key n.keys + countEqRun key (List.drop (posGT key n.keys) n.keys)) v n.values,
      next := n.next,
      previous := n.previous } : BTreeNode) hpar hnx hpv k0 ks0 hdrop
  rw [hsplit] at hrec
  simp only [insertTree, hu, Bool.false_and, Bool.false_eq_true, if_false,
    insertTreeRoot, hroot2, hload, hrec]
  refine ⟨trivial, trivial, trivial, ?_, ?_, ?_⟩
  · refine ⟨_, storeGet_storeSet_self2 _ _ _ rfl, rfl, ?_⟩
    rw [hid]
    exact ⟨rfl, rfl⟩
  · rw [storeGet_storeSet_ne _ _ _ hf2, storeGet_storeSet_ne _ _ _ hf1]
    refine ⟨_, storeGet_storeSet_self2 _ _ _ hid, hleaf, ?_⟩
    show (List.take _ _).length = _
    rw [List.length_take, hlen1]
    omega
  · rw [storeGet_storeSet_ne _ _ _ hf3]
    refine ⟨_, storeGet_storeSet_self2 _ _ _ rfl, rfl, ?_⟩
    show (List.drop _ _).length = _
    rw [List.length_drop, hlen1]

/-- C9 (amended): the claimed split threshold is off by one - IsFull is
len(Keys) >= PageSize, so an insert that brings a leaf root to exactly
pageSize keys already splits (see the separate counterexample).  Amended
threshold on a non-unique tree whose root is its stored leaf: when the leaf
would reach pageSize - 1 keys or fewer the insert completes with no split
(same root id, no fresh node ids, the root leaf one key longer); when it
would reach pageSize keys or more the insert performs exactly one split:
two fresh node ids are consumed, the root becomes a new internal node over
the old leaf and its new sibling, the left leaf keeps ceil((len+1)/2) keys
and the right leaf the rest - so the tree grows in height exactly because
the root split. -/
theorem split_threshold_c9_amended
    (bt : BTree) (n : BTreeNode) (key : Key) (v : Val) (f : Nat)
    (hu : bt.isUniqueKey = false)
    (hroot : bt.rootID ≠ "")
    (hget : storeGet bt.store bt.rootID = some n)
    (hid : n.id = bt.rootID)
    (hleaf : n.type = NodeType.leaf) :
    ((n.keys.length : Int) + 1 < n.pageSize →
      (insertTree (f + 4) bt key v).2 = none ∧
      (insertTree (f + 4) bt key v).1.rootID = bt.rootID ∧
      (insertTree (f + 4) bt key v).1.nextID = bt.nextID ∧
      ∃ m, storeGet (insertTree (f + 4) bt key v).1.store bt.rootID = some m ∧
        m.type = NodeType.leaf ∧ m.keys.length = n.keys.length + 1) ∧
    ((n.keys.length : Int) + 1 ≥ n.pageSize →
      n.parent = "" → n.next = "" → n.previous = "" →
      bt.rootID ≠ "n" ++ toString bt.nextID →
      bt.rootID ≠ "n" ++ toString (bt.nextID + 1) →
      ("n" ++ toString bt.nextID : String) ≠ "n" ++ toString (bt.nextID + 1) →
      (insertTree (f + 4) bt key v).2 = none ∧
      (insertTree (f + 4) bt key v).1.rootID = "n" ++ toString (bt.nextID + 1) ∧
      (insertTree (f + 4) bt key v).1.nextID = bt.nextID + 2 ∧
      (∃ r, storeGet (insertTree (f + 4) bt key v).1.store ("n" ++ toString (bt.nextID + 1)) = some r ∧
        r.type = NodeType.internal ∧ r.keys.length = 1 ∧
        r.values = [Val.str bt.rootID, Val.str ("n" ++ toString bt.nextID)]) ∧
      (∃ l, storeGet (insertTree (f + 4) bt key v).1.store bt.rootID = some l ∧
        l.type = NodeType.leaf ∧ l.keys.length = (n.keys.length + 1) / 2) ∧
      (∃ r2, storeGet (insertTree (f + 4) bt key v).1.store ("n" ++ toString bt.nextID) = some r2 ∧
        r2.type = NodeType.leaf ∧
        r2.keys.length = n.keys.length + 1 - (n.keys.length + 1) / 2)) := by
  constructor
  · intro hlt
    exact insertTree_leafRoot_noSplit bt n key v f hu hroot hget hid hleaf hlt
  · intro hge hpar hnx hpv hf1 hf2 hf3
    exact insertTree_leafRoot_split bt n key v f hu hroot hget hid hleaf hge
      hpar hnx hpv hf1 hf2 hf3

theorem split_threshold_c9_amended_witness :
    (treeW1.isUniqueKey = false ∧ treeW1.rootID ≠ "" ∧
     storeGet treeW1.store treeW1.rootID = some nodeW1 ∧
     nodeW1.id = treeW1.rootID ∧ nodeW1.type = NodeType.leaf ∧
     ((nodeW1.keys.length : Int) + 1 ≥ nodeW1.pageSize)) ∧
    ((insertTree (0 + 4) treeW1 (intKey 2) (rowOf 2 "b")).2 = none ∧
     (insertTree (0 + 4) treeW1 (intKey 2) (rowOf 2 "b")).1.rootID =
       "n" ++ toString (treeW1.nextID + 1) ∧
     (insertTree (0 + 4) treeW1 (intKey 2) (rowOf 2 "b")).1.nextID =
       treeW1.nextID + 2 ∧
     (∃ r, storeGet (insertTree (0 + 4) treeW1 (intKey 2) (rowOf 2 "b")).1.store
         ("n" ++ toString (treeW1.nextID + 1)) = some r ∧
       r.type = NodeType.internal ∧ r.keys.length = 1 ∧
       r.values = [Val.str treeW1.rootID,
         Val.str ("n" ++ toString treeW1.nextID)]) ∧
     (∃ l, storeGet (insertTree (0 + 4) treeW1 (intKey 2) (rowOf 2 "b")).1.store
         treeW1.rootID = some l ∧
       l.type = NodeType.leaf ∧
       l.keys.length = (nodeW1.keys.length + 1) / 2) ∧
     (∃ r2, storeGet (insertTree (0 + 4) treeW1 (intKey 2) (rowOf 2 "b")).1.store
         ("n" ++ toString treeW1.nextID) = some r2 ∧
       r2.type = NodeType.leaf ∧
       r2.keys.length = nodeW1.keys.length + 1 - (nodeW1.keys.length + 1) / 2)) :=
  ⟨⟨by decide, by decide, by decide, by decide, by decide, by decide⟩,
   (split_threshold_c9_amended treeW1 nodeW1 (intKey 2) (rowOf 2 "b") 0
       (by decide) (by decide) (by decide) (by decide) (by decide)).2
     (by decide) (by decide) (by decide) (by decide) (by decide) (by decide)
     (by decide)⟩

/-! ## The duplicate-key contract of Insert on unique trees -/

theorem collectEqual_mem (k : Key) :
    ∀ (ks : List Key) (vs : List Val) (res : List Val),
      collectEqual k ks vs = .ok res → res ≠ [] →
      ∃ q ∈ ks, compareKeys k q = 0 := by
  intro ks
  induction ks with
  | nil =>
    intro vs res h hne
    simp only [collectEqual] at h
    cases h
    exact absurd rfl hne
  | cons q ks ih =>
    intro vs res h hne
    simp only [collectEqual] at h
    by_cases hq : compareKeys k q = 0
    · exact ⟨q, List.mem_cons_self q ks, hq⟩
    · rw [if_neg hq] at h
      cases vs with
      | nil =>
        obtain ⟨q', hq', hcmp⟩ := ih [] res h hne
        exact ⟨q', List.mem_cons_of_mem q hq', hcmp⟩
      | cons v vs =>
        obtain ⟨q', hq', hcmp⟩ := ih vs res h hne
        exact ⟨q', List.mem_cons_of_mem q hq', hcmp⟩

theorem collectEqual_total (k : Key) :
    ∀ (ks : List Key) (vs : List Val), ks.length = vs.length →
      ∃ res, collectEqual k ks vs = .ok res ∧
        ((∃ q ∈ ks, compareKeys k q = 0) → res ≠ []) := by
  intro ks
  induction ks with
  | nil =>
    intro vs hlen
    refine ⟨[], rfl, ?_⟩
    rintro ⟨q, hq, -⟩
    exact absurd hq (List.not_mem_nil q)
  | cons q ks ih =>
    intro vs hlen
    cases vs with
    | nil => simp at hlen
    | cons v vs =>
      simp only [List.length_cons, Nat.succ_inj] at hlen
      obtain ⟨res, hres, hne⟩ := ih vs hlen
      by_cases hq : compareKeys k q = 0
      · refine ⟨v :: res, ?_, by simp⟩
        simp only [collectEqual, if_pos hq, hres]
        rfl
      · refine ⟨res, ?_, ?_⟩
        · simp only [collectEqual, if_neg hq, hres]
        · rintro ⟨q', hq', hcmp⟩
          rcases List.mem_cons.mp hq' with rfl | hmem
          · exact absurd hcmp hq
          · exact hne ⟨q', hmem, hcmp⟩

theorem loadNode_err (st : Store) (id : String) (e : DBError) :
    loadNode st id = .error e → e = .loadFailed id := by
  unfold loadNode
  intro h
  cases hs : storeGet st id with
  | none =>
    simp only [hs] at h
    cases h
    rfl
  | some m =>
    simp only [hs] at h
    cases h

theorem collectEqual_err (k : Key) :
    ∀ (ks : List Key) (vs : List Val) (e : DBError),
      collectEqual k ks vs = .error e → e = .indexOutOfRange := by
  intro ks
  induction ks with
  | nil =>
    intro vs e h
    simp only [collectEqual] at h
    cases h
  | cons q ks ih =>
    intro vs e h
    by_cases hq : compareKeys k q = 0
    · cases vs with
      | nil =>
        simp only [collectEqual, if_pos hq] at h
        cases h
        rfl
      | cons v vs =>
        simp only [collectEqual, if_pos hq, bind, Except.bind] at h
        cases hrest : collectEqual k ks vs with
        | error e2 =>
          simp only [hrest] at h
          cases h
          exact ih vs _ hrest
        | ok res =>
          simp only [hrest] at h
          cases h
    · cases vs with
      | nil =>
        simp only [collectEqual, if_neg hq] at h
        exact ih [] e h
      | cons v vs =>
        simp only [collectEqual, if_neg hq] at h
        exact ih vs e h

theorem searchDescend_ne_dup :
    ∀ (fuel : Nat) (st : Store) (node : BTreeNode) (k : Key) (e : DBError),
      searchDescend fuel st node k = .error e → e ≠ DBError.duplicateKey := by
  intro fuel
  induction fuel with
  | zero =>
    intro st node k e h
    cases h
    simp
  | succ fuel ih =>
    intro st node k e h
    simp only [searchDescend] at h
    by_cases hleaf : node.isLeaf = true
    · rw [if_pos hleaf] at h
      cases h
    · rw [if_neg hleaf] at h
      cases hget : node.values.get? (if posGE k node.keys ≥ node.values.length then node.values.length - 1 else posGE k node.keys) with
      | none =>
        simp only [hget] at h
        cases h
        simp
      | some cv =>
        simp only [hget] at h
        cases hstr : cv.asStr with
        | none =>
          simp only [hstr] at h
          cases h
          simp
        | some cid =>
          simp only [hstr, bind, Except.bind] at h
          cases hload : loadNode st cid with
          | error e2 =>
            simp only [hload] at h
            cases h
            have := loadNode_err st cid _ hload
            subst this
            simp
          | ok child =>
            simp only [hload] at h
            exact ih st child k e h

theorem searchTree_ne_dup (fuel : Nat) (bt : BTree) (k : Key) (e : DBError) :
    searchTree fuel bt (some k) = .error e → e ≠ DBError.duplicateKey := by
  intro h
  unfold searchTree at h
  by_cases hr : (bt.rootID == "") = true
  · rw [if_pos hr] at h
    cases h
  · rw [if_neg hr] at h
    simp only [bind, Except.bind] at h
    cases hload : loadNode bt.store bt.rootID with
    | error e2 =>
      simp only [hload] at h
      cases h
      have := loadNode_err bt.store bt.rootID _ hload
      subst this
      simp
    | ok root =>
      simp only [hload] at h
      cases hdesc : searchDescend fuel bt.store root k with
      | error e2 =>
        simp only [hdesc] at h
        cases h
        exact searchDescend_ne_dup fuel bt.store root k _ hdesc
      | ok leaf =>
        simp only [hdesc] at h
        have := collectEqual_err k leaf.keys leaf.values e h
        subst this
        simp

/-- The leaf the search descent reaches stores only keys of the subtree
below the stored node the descent started from. -/
theorem searchDescend_inSubtree :
    ∀ (fuel : Nat) (st : Store) (node : BTreeNode) (id : String)
      (m : BTreeNode) (k : Key) (leaf : BTreeNode),
      storeGet st id = some m →
      m.keys = node.keys → m.values = node.values → m.type = node.type →
      searchDescend fuel st node k = .ok leaf →
      ∀ q ∈ leaf.keys, InSubtree st id q := by
  intro fuel
  induction fuel with
  | zero =>
    intro st node id m k leaf _ _ _ _ h
    cases h
  | succ fuel ih =>
    intro st node id m k leaf hm hkeys hvals htype h q hq
    simp only [searchDescend] at h
    by_cases hleaf : node.isLeaf = true
    · rw [if_pos hleaf] at h
      cases h
      refine InSubtree.leaf id m q hm ?_ ?_
      · rw [htype]
        simpa [BTreeNode.isLeaf] using hleaf
      · rw [hkeys]
        exact hq
    · rw [if_neg hleaf] at h
      cases hget : node.values.get? (if posGE k node.keys ≥ node.values.length then node.values.length - 1 else posGE k node.keys) with
      | none =>
        simp only [hget] at h
        cases h
      | some cv =>
        simp only [hget] at h
        cases hstr : cv.asStr with
        | none =>
          simp only [hstr] at h
          cases h
        | some cid =>
          simp only [hstr, bind, Except.bind] at h
          cases hload : loadNode st cid with
          | error e2 =>
            simp only [hload] at h
            cases h
          | ok child =>
            simp only [hload] at h
            have hcv : cv = Val.str cid := by
              cases cv with
              | str s =>
                simp only [Val.asStr] at hstr
                cases hstr
                rfl
              | rowv r =>
                simp only [Val.asStr] at hstr
                exact Option.noConfusion hstr
            obtain ⟨m2, hm2, hmc⟩ : ∃ m2, storeGet st cid = some m2 ∧
                child = { m2 with isDirty := false } := by
              unfold loadNode at hload
              cases hs : storeGet st cid with
              | none =>
                rw [hs] at hload
                cases hload
              | some m2 =>
                rw [hs] at hload
                cases hload
                exact ⟨m2, rfl, rfl⟩
            have htype2 : m.type = NodeType.internal := by
              rw [htype]
              cases hnt : node.type with
              | leaf =>
                exact absurd (by simp [BTreeNode.isLeaf, hnt]) hleaf
              | internal => rfl
            refine InSubtree.child id m (if posGE k node.keys ≥ node.values.length then node.values.length - 1 else posGE k node.keys) cid q hm htype2 ?_ ?_
            · rw [hvals]
              rw [hcv] at hget
              exact hget
            · subst hmc
              exact ih st { m2 with isDirty := false } cid m2 k leaf hm2
                rfl rfl rfl h q hq

theorem walkToLeftmost_err :
    ∀ (fuel : Nat) (st : Store) (cur : BTreeNode) (e : DBError),
      walkToLeftmost fuel st cur = .error e → e = .outOfFuel := by
  intro fuel
  induction fuel with
  | zero =>
    intro st cur e h
    cases h
    rfl
  | succ fuel ih =>
    intro st cur e h
    simp only [walkToLeftmost] at h
    by_cases hp : (cur.previous == "") = true
    · rw [if_pos hp] at h
      cases h
    · rw [if_neg hp] at h
      cases hl : loadNode st cur.previous with
      | error e2 =>
        simp only [hl] at h
        cases h
      | ok prev =>
        simp only [hl] at h
        exact ih st prev e h

theorem gatherChain_err :
    ∀ (fuel : Nat) (st : Store) (cur : BTreeNode) (e : DBError),
      gatherChain fuel st cur = .error e → e = .outOfFuel := by
  intro fuel
  induction fuel with
  | zero =>
    intro st cur e h
    cases h
    rfl
  | succ fuel ih =>
    intro st cur e h
    simp only [gatherChain] at h
    by_cases hp : (cur.next == "") = true
    · rw [if_pos hp] at h
      cases h
    · rw [if_neg hp] at h
      cases hl : loadNode st cur.next with
      | error e2 =>
        simp only [hl] at h
        cases h
      | ok nx =>
        simp only [hl, bind, Except.bind] at h
        cases hg : gatherChain fuel st nx with
        | error e2 =>
          simp only [hg] at h
          cases h
          exact ih st nx _ hg
        | ok rest =>
          simp only [hg] at h
          cases h

theorem headKeys_err :
    ∀ (l : List BTreeNode) (e : DBError),
      headKeys l = .error e → e = .indexOutOfRange := by
  intro l
  induction l with
  | nil =>
    intro e h
    cases h
  | cons n rest ih =>
    intro e h
    simp only [headKeys] at h
    cases hh : n.keys.head? with
    | none =>
      simp only [hh] at h
      cases h
      rfl
    | some k =>
      simp only [hh, bind, Except.bind] at h
      cases hr : headKeys rest with
      | error e2 =>
        simp only [hr] at h
        cases h
        exact ih _ hr
      | ok ks =>
        simp only [hr] at h
        cases h

theorem splits_ne_dup : ∀ (fuel : Nat),
    (∀ (bt : BTree) (leaf : BTreeNode),
      ¬ (splitLeaf fuel bt leaf).2.2 = some DBError.duplicateKey) ∧
    (∀ (bt : BTree) (parent : BTreeNode) (k : Key) (rid : String),
      ¬ (insertInternalAfterSplit fuel bt parent k rid).2 =
        some DBError.duplicateKey) ∧
    (∀ (bt : BTree) (node : BTreeNode),
      ¬ (splitInternal fuel bt node).2 = some DBError.duplicateKey) := by
  intro fuel
  induction fuel with
  | zero =>
    exact ⟨fun bt leaf h => DBError.noConfusion (Option.some.inj h),
      fun bt parent k rid h => DBError.noConfusion (Option.some.inj h),
      fun bt node h => DBError.noConfusion (Option.some.inj h)⟩
  | succ fuel ih =>
    obtain ⟨ihA, ihB, ihC⟩ := ih
    refine ⟨?_, ?_, ?_⟩
    · intro bt leaf h
      simp only [splitLeaf] at h
      repeat' split at h
      all_goals try dsimp only at h
      all_goals first
        | exact Option.noConfusion h
        | exact DBError.noConfusion (Option.some.inj h)
        | exact DBError.noConfusion
            ((walkToLeftmost_err _ _ _ _ (by assumption)).symm.trans
              (Option.some.inj h))
        | exact DBError.noConfusion
            ((gatherChain_err _ _ _ _ (by assumption)).symm.trans
              (Option.some.inj h))
        | exact DBError.noConfusion
            ((headKeys_err _ _ (by assumption)).symm.trans
              (Option.some.inj h))
        | exact DBError.noConfusion
            ((loadNode_err _ _ _ (by assumption)).symm.trans
              (Option.some.inj h))
        | exact ihB _ _ _ _ h
    · intro bt parent k rid h
      simp only [insertInternalAfterSplit] at h
      repeat' split at h
      all_goals try dsimp only at h
      all_goals first
        | exact Option.noConfusion h
        | exact DBError.noConfusion (Option.some.inj h)
        | exact ihC _ _ h
    · intro bt node h
      simp only [splitInternal] at h
      repeat' split at h
      all_goals try dsimp only at h
      all_goals first
        | exact Option.noConfusion h
        | exact DBError.noConfusion (Option.some.inj h)
        | exact DBError.noConfusion
            ((loadNode_err _ _ _ (by assumption)).symm.trans
              (Option.some.inj h))
        | exact ihB _ _ _ _ h

/-- A duplicate-key result of insertRecursive certifies an equal key in the
subtree below the mirrored stored node, and the tree state is returned
unchanged (the check fires before any save). -/
theorem insertRecursive_dup :
    ∀ (fuel : Nat) (bt : BTree) (node : BTreeNode) (id : String)
      (m : BTreeNode) (k : Key) (v : Val) (bt1 : BTree) (node1 : BTreeNode),
      storeGet bt.store id = some m →
      m.keys = node.keys → m.values = node.values → m.type = node.type →
      insertRecursive fuel bt node k v = (bt1, node1, some DBError.duplicateKey) →
      (∃ q, InSubtree bt.store id q ∧ compareKeys k q = 0) ∧ bt1 = bt := by
  intro fuel
  induction fuel with
  | zero =>
    intro bt node id m k v bt1 node1 _ _ _ _ hres
    simp only [insertRecursive, Prod.mk.injEq] at hres
    exact absurd hres.2.2 (by decide)
  | succ fuel ih =>
    intro bt node id m k v bt1 node1 hm hkeys hvals htype hres
    simp only [insertRecursive] at hres
    by_cases hleaf : node.isLeaf = true
    · rw [if_pos hleaf] at hres
      by_cases hdup :
          (bt.isUniqueKey && node.keys.any fun q => compareKeys k q == 0) = true
      · rw [if_pos hdup] at hres
        simp only [Prod.mk.injEq] at hres
        obtain ⟨hbt, -, -⟩ := hres
        have hany := (Bool.and_eq_true _ _).mp hdup
        obtain ⟨q, hqmem, hqeq⟩ := List.any_eq_true.mp hany.2
        refine ⟨⟨q, ?_, eq_of_beq hqeq⟩, hbt.symm⟩
        refine InSubtree.leaf id m q hm ?_ ?_
        · rw [htype]
          simpa [BTreeNode.isLeaf] using hleaf
        · rw [hkeys]
          exact hqmem
      · rw [if_neg hdup] at hres
        repeat' split at hres
        all_goals first
          | (simp only [Prod.mk.injEq] at hres
             exact Option.noConfusion hres.2.2)
          | exact absurd (congrArg (fun p => p.2.2) hres)
              ((splits_ne_dup fuel).1 _ _)
    · rw [if_neg hleaf] at hres
      cases hget : node.values.get? (posGT k node.keys) with
      | none =>
        simp only [hget, Prod.mk.injEq] at hres
        exact absurd hres.2.2 (by simp)
      | some cv =>
        simp only [hget] at hres
        cases hstr : cv.asStr with
        | none =>
          simp only [hstr, Prod.mk.injEq] at hres
          exact absurd hres.2.2 (by simp)
        | some cid =>
          simp only [hstr] at hres
          cases hload : loadNode bt.store cid with
          | error e =>
            simp only [hload, Prod.mk.injEq] at hres
            obtain ⟨-, -, he⟩ := hres
            have := loadNode_err bt.store cid e hload
            subst this
            exact DBError.noConfusion (Option.some.inj he)
          | ok child =>
            simp only [hload] at hres
            obtain ⟨m2, hm2, hmc⟩ : ∃ m2, storeGet bt.store cid = some m2 ∧
                child = { m2 with isDirty := false } := by
              unfold loadNode at hload
              cases hs : storeGet bt.store cid with
              | none =>
                rw [hs] at hload
                cases hload
              | some m2 =>
                rw [hs] at hload
                cases hload
                exact ⟨m2, rfl, rfl⟩
            rcases hrec : insertRecursive fuel bt child k v with ⟨bt2, child2, err2⟩
            simp only [hrec] at hres
            cases err2 with
            | some e2 =>
              simp only [Prod.mk.injEq] at hres
              obtain ⟨hbt, -, he⟩ := hres
              have he2 : e2 = DBError.duplicateKey := Option.some.inj he
              subst he2
              subst hmc
              obtain ⟨⟨q, hsub, hcmp⟩, hbt2⟩ := ih bt
                { m2 with isDirty := false } cid m2 k v bt2 child2 hm2
                rfl rfl rfl hrec
              have htype2 : m.type = NodeType.internal := by
                rw [htype]
                cases hnt : node.type with
                | leaf => exact absurd (by simp [BTreeNode.isLeaf, hnt]) hleaf
                | internal => rfl
              have hcv : cv = Val.str cid := by
                cases cv with
                | str s =>
                  simp only [Val.asStr] at hstr
                  cases hstr
                  rfl
                | rowv r =>
                  simp only [Val.asStr] at hstr
                  exact Option.noConfusion hstr
              refine ⟨⟨q, ?_, hcmp⟩, hbt.symm.trans hbt2⟩
              refine InSubtree.child id m (posGT k node.keys) cid q hm htype2 ?_ hsub
              rw [hvals]
              rw [hcv] at hget
              exact hget
            | none =>
              dsimp only at hres
              split at hres
              · simp only [Prod.mk.injEq] at hres
                exact Option.noConfusion hres.2.2
              · simp only [Prod.mk.injEq] at hres
                exact Option.noConfusion hres.2.2

/-- A non-empty keyed Search certifies an equal key below the root. -/
theorem searchTree_found (fuel : Nat) (bt : BTree) (k : Key) (results : List Val)
    (hroot : bt.rootID ≠ "")
    (h : searchTree fuel bt (some k) = .ok results) (hne : results ≠ []) :
    ∃ q, InSubtree bt.store bt.rootID q ∧ compareKeys k q = 0 := by
  unfold searchTree at h
  have hr : (bt.rootID == "") = false := beq_eq_false_iff_ne.mpr hroot
  simp only [hr, Bool.false_eq_true, if_false, bind, Except.bind] at h
  cases hload : loadNode bt.store bt.rootID with
  | error e =>
    simp only [hload] at h
    cases h
  | ok root =>
    simp only [hload] at h
    cases hdesc : searchDescend fuel bt.store root k with
    | error e =>
      simp only [hdesc] at h
      cases h
    | ok leaf =>
      simp only [hdesc] at h
      obtain ⟨q, hq, hcmp⟩ := collectEqual_mem k _ _ results h hne
      obtain ⟨m, hm, hmc⟩ : ∃ m, storeGet bt.store bt.rootID = some m ∧
          root = { m with isDirty := false } := by
        unfold loadNode at hload
        cases hs : storeGet bt.store bt.rootID with
        | none =>
          rw [hs] at hload
          cases hload
        | some m =>
          rw [hs] at hload
          cases hload
          exact ⟨m, rfl, rfl⟩
      subst hmc
      exact ⟨q, searchDescend_inSubtree fuel bt.store
        { m with isDirty := false } bt.rootID m k leaf hm rfl rfl rfl hdesc q hq,
        hcmp⟩

/-- On a unique non-empty tree a duplicate-key Insert certifies the key was
present and leaves the tree unchanged. -/
theorem insertTree_dup_sound (fuel : Nat) (bt : BTree) (k : Key) (v : Val)
    (hu : bt.isUniqueKey = true) (hroot : bt.rootID ≠ "")
    (h : (insertTree fuel bt k v).2 = some DBError.duplicateKey) :
    TreeHasKey bt k ∧ (insertTree fuel bt k v).1 = bt := by
  unfold insertTree at h ⊢
  have hbne : (bt.rootID != "") = true := bne_iff_ne.mpr hroot
  have hcond : (bt.isUniqueKey && (bt.rootID != "")) = true := by
    rw [hu, hbne]
    rfl
  rw [if_pos hcond] at h ⊢
  cases hsearch : searchTree fuel bt (some k) with
  | error e =>
    simp only [hsearch] at h ⊢
    exact absurd (Option.some.inj h)
      (searchTree_ne_dup fuel bt k e hsearch)
  | ok results =>
    simp only [hsearch] at h ⊢
    by_cases hlen : results.length > 0
    · rw [if_pos hlen] at h ⊢
      refine ⟨⟨hroot, searchTree_found fuel bt k results hroot hsearch ?_⟩, rfl⟩
      intro hnil
      rw [hnil] at hlen
      simp at hlen
    · rw [if_neg hlen] at h ⊢
      unfold insertTreeRoot at h ⊢
      have hr : (bt.rootID == "") = false := beq_eq_false_iff_ne.mpr hroot
      simp only [hr, Bool.false_eq_true, if_false] at h ⊢
      cases hload : loadNode bt.store bt.rootID with
      | error e =>
        simp only [hload] at h ⊢
        have := loadNode_err bt.store bt.rootID e hload
        subst this
        exact absurd (Option.some.inj h) fun hc => DBError.noConfusion hc
      | ok root =>
        simp only [hload] at h ⊢
        rcases hrec : insertRecursive fuel bt root k v with ⟨bt2, n2, err⟩
        simp only [hrec] at h ⊢
        subst h
        obtain ⟨m, hm, hmc⟩ : ∃ m, storeGet bt.store bt.rootID = some m ∧
            root = { m with isDirty := false } := by
          unfold loadNode at hload
          cases hs : storeGet bt.store bt.rootID with
          | none =>
            rw [hs] at hload
            cases hload
          | some m =>
            rw [hs] at hload
            cases hload
            exact ⟨m, rfl, rfl⟩
        subst hmc
        obtain ⟨⟨q, hsub, hcmp⟩, hbt2⟩ := insertRecursive_dup fuel bt
          { m with isDirty := false } bt.rootID m k v bt2 n2 hm rfl rfl rfl hrec
        exact ⟨⟨hroot, q, hsub, hcmp⟩, hbt2⟩

theorem posGE_lt_all (key : Key) :
    ∀ (l : List Key) (j : Nat), j < posGE key l →
      ∀ s, l.get? j = some s → 0 ≤ compareKeys key s := by
  intro l
  induction l with
  | nil =>
    intro j hj s hs
    simp [posGE] at hj
  | cons t rest ih =>
    intro j hj s hs
    simp only [posGE] at hj
    by_cases hc : 0 ≤ compareKeys key t
    · rw [if_pos hc] at hj
      cases j with
      | zero =>
        simp only [List.get?] at hs
        cases hs
        exact hc
      | succ j =>
        simp only [List.get?] at hs
        exact ih j (by omega) s hs
    · rw [if_neg hc] at hj
      omega

theorem posGE_stop (key : Key) :
    ∀ (l : List Key) (s : Key), l.get? (posGE key l) = some s →
      compareKeys key s < 0 := by
  intro l
  induction l with
  | nil =>
    intro s hs
    simp [List.get?] at hs
  | cons t rest ih =>
    intro s hs
    simp only [posGE] at hs
    by_cases hc : 0 ≤ compareKeys key t
    · rw [if_pos hc] at hs
      simp only [List.get?] at hs
      exact ih s hs
    · rw [if_neg hc] at hs
      simp only [List.get?] at hs
      cases hs
      omega

theorem wfNode_store {st : Store} {sig : List KKind} {id : String} {h : Nat}
    {lo hi : Option Key} (hwf : WFNode st sig id h lo hi) :
    ∃ m, storeGet st id = some m := by
  cases hwf with
  | leaf id n h lo hi hm => exact ⟨n, hm⟩
  | internal id n h lo hi hm => exact ⟨n, hm⟩

/-- Every key of a well-formed subtree is shaped and lies within the
subtree bounds. -/
theorem inSubtree_bounds (st : Store) (sig : List KKind) :
    ∀ (id : String) (h : Nat) (lo hi : Option Key),
      WFNode st sig id h lo hi →
      (∀ l, lo = some l → Shaped sig l) →
      (∀ u, hi = some u → Shaped sig u) →
      ∀ q, InSubtree st id q → Shaped sig q ∧ lbOK lo q ∧ ubOK hi q := by
  intro id h lo hi hwf
  induction hwf with
  | leaf id n h lo hi hm htype hlen hkeys =>
    intro hlo hhi q hq
    cases hq with
    | leaf id n2 q hm2 htype2 hmem =>
      have hn : n2 = n := by
        rw [hm] at hm2
        exact (Option.some.inj hm2).symm
      subst hn
      exact hkeys q hmem
    | child id n2 i cid q hm2 htype2 =>
      have hn : n2 = n := by
        rw [hm] at hm2
        exact (Option.some.inj hm2).symm
      subst hn
      rw [htype] at htype2
      exact NodeType.noConfusion htype2
  | internal id n h lo hi hm htype hlen hseps hsorted hcvals hchild ih =>
    intro hlo hhi q hq
    cases hq with
    | leaf id n2 q hm2 htype2 hmem =>
      have hn : n2 = n := by
        rw [hm] at hm2
        exact (Option.some.inj hm2).symm
      subst hn
      rw [htype] at htype2
      exact NodeType.noConfusion htype2
    | child id n2 i cid q hm2 htype2 hcid hqsub =>
      have hn : n2 = n := by
        rw [hm] at hm2
        exact (Option.some.inj hm2).symm
      subst hn
      have hclo : ∀ l, childLo lo n2.keys i = some l → Shaped sig l := by
        intro l hl
        cases i with
        | zero => exact hlo l hl
        | succ j =>
          simp only [childLo] at hl
          exact (hseps l (List.get?_mem hl)).1
      have hchi : ∀ u, childHi hi n2.keys i = some u → Shaped sig u := by
        intro u hu
        simp only [childHi] at hu
        cases hg : n2.keys.get? i with
        | none =>
          rw [hg] at hu
          exact hhi u hu
        | some s =>
          rw [hg] at hu
          cases hu
          exact (hseps _ (List.get?_mem hg)).1
      obtain ⟨hsq, hlbq, hubq⟩ := ih i cid hcid hclo hchi q hqsub
      refine ⟨hsq, ?_, ?_⟩
      · intro l hl
        cases i with
        | zero => exact hlbq l hl
        | succ j =>
          have hj1 : j + 1 < n2.values.length := by
            obtain ⟨hlt, -⟩ := List.get?_eq_some.mp hcid
            exact hlt
          have hj : j < n2.keys.length := by omega
          obtain ⟨sep, hsep⟩ : ∃ sep, n2.keys.get? j = some sep :=
            ⟨_, List.get?_eq_get hj⟩
          have hsepmem : sep ∈ n2.keys := List.get?_mem hsep
          have h1 : compareKeys sep q ≤ 0 := hlbq sep (by
            simp only [childLo]
            exact hsep)
          have h2 : compareKeys l sep ≤ 0 := (hseps sep hsepmem).2.1 l hl
          exact (compareKeys_trans sig l sep q (hlo l hl)
            (hseps sep hsepmem).1 hsq).1 h2 h1
      · intro u hu
        cases hg : n2.keys.get? i with
        | none =>
          refine hubq u ?_
          simp only [childHi, hg]
          exact hu
        | some sep =>
          have hsepmem : sep ∈ n2.keys := List.get?_mem hg
          have h1 : compareKeys q sep < 0 := hubq sep (by
            simp only [childHi, hg])
          have h2 : compareKeys sep u < 0 := (hseps sep hsepmem).2.2 u hu
          exact (compareKeys_trans sig q sep u hsq
            (hseps sep hsepmem).1 (hhi u hu)).2.1 (le_of_lt h1) h2

/-- The keyed search descent, on a well-formed subtree that contains a key
equal to the probe, reaches (with fuel above the height) a leaf that
contains an equal key. -/
theorem searchDescend_finds (sig : List KKind) (st : Store) (k : Key)
    (hk : Shaped sig k) :
    ∀ (id : String) (hh : Nat) (lo hi : Option Key),
      WFNode st sig id hh lo hi →
      ∀ (fuel : Nat) (node m : BTreeNode),
        hh < fuel →
        (∀ l, lo = some l → Shaped sig l) →
        (∀ u, hi = some u → Shaped sig u) →
        storeGet st id = some m →
        m.keys = node.keys → m.values = node.values → m.type = node.type →
        (∃ q, InSubtree st id q ∧ compareKeys k q = 0) →
        ∃ leaf, searchDescend fuel st node k = .ok leaf ∧
          leaf.keys.length = leaf.values.length ∧
          ∃ q ∈ leaf.keys, compareKeys k q = 0 := by
  intro id hh lo hi hwf
  induction hwf with
  | leaf id n hh lo hi hm htype hlen hkeys =>
    intro fuel node m hfuel hlo hhi hm2 hkeys2 hvals2 htype2 hex
    obtain ⟨q, hq, hcmp⟩ := hex
    have hmn : m = n := by
      rw [hm] at hm2
      exact (Option.some.inj hm2).symm
    subst hmn
    cases fuel with
    | zero => omega
    | succ g =>
      have hleaf : node.isLeaf = true := by
        simp [BTreeNode.isLeaf, ← htype2, htype]
      simp only [searchDescend, hleaf, if_true]
      refine ⟨node, rfl, ?_, ?_⟩
      · rw [← hkeys2, ← hvals2]
        exact hlen
      · cases hq with
        | leaf id n3 q hm3 htype3 hmem =>
          have hn3 : n3 = m := by
            rw [hm] at hm3
            exact (Option.some.inj hm3).symm
          subst hn3
          refine ⟨q, ?_, hcmp⟩
          rw [← hkeys2]
          exact hmem
        | child id n3 i cid q hm3 htype3 =>
          have hn3 : n3 = m := by
            rw [hm] at hm3
            exact (Option.some.inj hm3).symm
          subst hn3
          rw [htype] at htype3
          exact NodeType.noConfusion htype3
  | internal id n hh lo hi hm htype hlen hseps hsorted hcvals hchild ih =>
    intro fuel node m hfuel hlo hhi hm2 hkeys2 hvals2 htype2 hex
    obtain ⟨q, hq, hcmp⟩ := hex
    have hmn : m = n := by
      rw [hm] at hm2
      exact (Option.some.inj hm2).symm
    subst hmn
    cases fuel with
    | zero => omega
    | succ g =>
      have hleaf : node.isLeaf = false := by
        simp [BTreeNode.isLeaf, ← htype2, htype]
      have hvlen : node.values.length = node.keys.length + 1 := by
        rw [← hvals2, ← hkeys2]
        exact hlen
      have hposle := posGE_le_length k node.keys
      simp only [searchDescend, hleaf, Bool.false_eq_true, if_false]
      rw [if_neg (by omega)]
      have hposlt : posGE k node.keys < m.values.length := by
        rw [hvals2]
        omega
      obtain ⟨cid, hcid⟩ := hcvals (posGE k node.keys) hposlt
      have hcid2 : node.values.get? (posGE k node.keys) = some (Val.str cid) := by
        rw [← hvals2]
        exact hcid
      rw [hcid2]
      simp only [Val.asStr, bind, Except.bind]
      have hchildwf := hchild (posGE k node.keys) cid hcid
      obtain ⟨m2, hm2get⟩ := wfNode_store hchildwf
      have hload : loadNode st cid = .ok { m2 with isDirty := false } := by
        unfold loadNode
        rw [hm2get]
      rw [hload]
      have hclo : ∀ l, childLo lo m.keys (posGE k node.keys) = some l →
          Shaped sig l := by
        intro l hl
        cases hpg : posGE k node.keys with
        | zero =>
          rw [hpg] at hl
          exact hlo l hl
        | succ j =>
          rw [hpg] at hl
          simp only [childLo] at hl
          exact (hseps l (List.get?_mem hl)).1
      have hchi : ∀ u, childHi hi m.keys (posGE k node.keys) = some u →
          Shaped sig u := by
        intro u hu
        simp only [childHi] at hu
        cases hg2 : m.keys.get? (posGE k node.keys) with
        | none =>
          rw [hg2] at hu
          exact hhi u hu
        | some s =>
          rw [hg2] at hu
          cases hu
          exact (hseps _ (List.get?_mem hg2)).1
      cases hq with
      | leaf id n3 q hm3 htype3 hmem =>
        have hn3 : n3 = m := by
          rw [hm] at hm3
          exact (Option.some.inj hm3).symm
        subst hn3
        rw [htype] at htype3
        exact NodeType.noConfusion htype3
      | child id n3 i cid3 q hm3 htype3 hcid3 hqsub =>
        have hn3 : n3 = m := by
          rw [hm] at hm3
          exact (Option.some.inj hm3).symm
        subst hn3
        rw [hkeys2] at hseps hsorted hclo hchi
        rw [hvals2] at hcvals hcid3 hcid
        rw [hkeys2, hvals2] at hchild ih
        have hclo3 : ∀ l, childLo lo node.keys i = some l → Shaped sig l := by
          intro l hl
          cases i with
          | zero => exact hlo l hl
          | succ j =>
            simp only [childLo] at hl
            exact (hseps l (List.get?_mem hl)).1
        have hchi3 : ∀ u, childHi hi node.keys i = some u → Shaped sig u := by
          intro u hu
          simp only [childHi] at hu
          cases hg2 : node.keys.get? i with
          | none =>
            rw [hg2] at hu
            exact hhi u hu
          | some s =>
            rw [hg2] at hu
            cases hu
            exact (hseps _ (List.get?_mem hg2)).1
        have hqb := inSubtree_bounds st sig cid3 hh
          (childLo lo node.keys i) (childHi hi node.keys i)
          (hchild i cid3 hcid3) hclo3 hchi3 q hqsub
        have hipos : i = posGE k node.keys := by
          by_contra hne
          rcases Nat.lt_or_ge i (posGE k node.keys) with hlt | hge
          · have hilt : i < node.keys.length := by omega
            obtain ⟨sepi, hsepi⟩ : ∃ s, node.keys.get? i = some s :=
              ⟨_, List.get?_eq_get hilt⟩
            have hub : compareKeys q sepi < 0 := by
              refine hqb.2.2 sepi ?_
              simp only [childHi, hsepi]
            have hge0 : 0 ≤ compareKeys k sepi :=
              posGE_lt_all k node.keys i hlt sepi hsepi
            have hlt0 : compareKeys k sepi < 0 :=
              (compareKeys_trans sig k q sepi hk hqb.1
                (hseps sepi (List.get?_mem hsepi)).1).2.1 (le_of_eq hcmp) hub
            omega
          · have hgt : posGE k node.keys < i := by
              rcases Nat.eq_or_lt_of_le hge with heq | hlt2
              · exact absurd heq.symm hne
              · omega
            cases i with
            | zero => omega
            | succ j =>
              have hjlt : j < node.keys.length := by
                obtain ⟨hlt3, -⟩ := List.get?_eq_some.mp hcid3
                omega
              obtain ⟨sepj, hsepj⟩ : ∃ s, node.keys.get? j = some s :=
                ⟨_, List.get?_eq_get hjlt⟩
              have hlb : compareKeys sepj q ≤ 0 := by
                refine hqb.2.1 sepj ?_
                simp only [childLo]
                exact hsepj
              have hplt : posGE k node.keys < node.keys.length := by omega
              obtain ⟨sepp, hsepp⟩ :
                  ∃ s, node.keys.get? (posGE k node.keys) = some s :=
                ⟨_, List.get?_eq_get hplt⟩
              have hst : compareKeys k sepp < 0 := posGE_stop k node.keys sepp hsepp
              have hWsepp := (hseps sepp (List.get?_mem hsepp)).1
              have hWsepj := (hseps sepj (List.get?_mem hsepj)).1
              have hsple : compareKeys sepp sepj ≤ 0 := by
                rcases Nat.eq_or_lt_of_le (Nat.le_of_lt_succ hgt) with heq | hlt3
                · rw [heq] at hsepp
                  have hss : sepp = sepj := by
                    rw [hsepp] at hsepj
                    exact Option.some.inj hsepj
                  subst hss
                  exact le_of_eq (compareKeys_self sepp)
                · have hpw := List.pairwise_iff_get.mp hsorted
                    ⟨posGE k node.keys, hplt⟩ ⟨j, hjlt⟩ hlt3
                  have hgp : node.keys.get ⟨posGE k node.keys, hplt⟩ = sepp := by
                    rw [List.get?_eq_get hplt] at hsepp
                    exact Option.some.inj hsepp
                  have hgj : node.keys.get ⟨j, hjlt⟩ = sepj := by
                    rw [List.get?_eq_get hjlt] at hsepj
                    exact Option.some.inj hsepj
                  rw [hgp, hgj] at hpw
                  omega
              have h1 : compareKeys k sepj < 0 :=
                (compareKeys_trans sig k sepp sepj hk hWsepp hWsepj).2.2 hst hsple
              have h2 : compareKeys k q < 0 :=
                (compareKeys_trans sig k sepj q hk hWsepj hqb.1).2.2 h1 hlb
              omega
        subst hipos
        have hcideq : cid3 = cid := by
          rw [hcid3] at hcid
          have hv := Option.some.inj hcid
          cases hv
          rfl
        subst hcideq
        exact ih _ _ hcid3 g { m2 with isDirty := false } m2 (by omega)
          hclo hchi hm2get rfl rfl rfl ⟨q, hqsub, hcmp⟩

/-- On a well-formed unique tree an Insert whose key is already present
returns the duplicate-key error (from the pre-insert Search). -/
theorem insertTree_dup_complete (sig : List KKind) (fuel hh : Nat)
    (bt : BTree) (k : Key) (v : Val)
    (hu : bt.isUniqueKey = true) (hroot : bt.rootID ≠ "")
    (hk : Shaped sig k)
    (hwf : WFNode bt.store sig bt.rootID hh none none)
    (hfuel : hh < fuel)
    (hkey : TreeHasKey bt k) :
    (insertTree fuel bt k v).2 = some DBError.duplicateKey := by
  obtain ⟨-, q, hsub, hcmp⟩ := hkey
  obtain ⟨m, hm⟩ := wfNode_store hwf
  have hfind := searchDescend_finds sig bt.store k hk bt.rootID hh none none hwf
    fuel { m with isDirty := false } m hfuel
    (fun l hl => Option.noConfusion hl) (fun u hu => Option.noConfusion hu)
    hm rfl rfl rfl ⟨q, hsub, hcmp⟩
  obtain ⟨leaf, hdesc, hleneq, q2, hq2, hcmp2⟩ := hfind
  obtain ⟨res, hres, hresne⟩ := collectEqual_total k leaf.keys leaf.values hleneq
  have hresne2 := hresne ⟨q2, hq2, hcmp2⟩
  have hsearch : searchTree fuel bt (some k) = .ok res := by
    unfold searchTree
    have hr : (bt.rootID == "") = false := beq_eq_false_iff_ne.mpr hroot
    simp only [hr, Bool.false_eq_true, if_false, bind, Except.bind]
    have hload : loadNode bt.store bt.rootID =
        .ok { m with isDirty := false } := by
      unfold loadNode
      rw [hm]
    simp only [hload, hdesc]
    exact hres
  unfold insertTree
  have hcond : (bt.isUniqueKey && (bt.rootID != "")) = true := by
    rw [hu, bne_iff_ne.mpr hroot]
    rfl
  rw [if_pos hcond]
  simp only [hsearch]
  rw [if_pos (show res.length > 0 from List.length_pos.mpr hresne2)]

/-- C1: on a unique (clustered) well-formed tree, Insert returns the
duplicate-key error exactly when a record with an equal key is already
stored, and a duplicate-key result leaves the whole tree state unchanged. -/
theorem insert_duplicate_iff_c1
    (sig : List KKind) (fuel hh : Nat) (bt : BTree) (k : Key) (v : Val)
    (hu : bt.isUniqueKey = true)
    (hroot : bt.rootID ≠ "")
    (hk : Shaped sig k)
    (hwf : WFNode bt.store sig bt.rootID hh none none)
    (hfuel : hh < fuel) :
    ((insertTree fuel bt k v).2 = some DBError.duplicateKey ↔ TreeHasKey bt k) ∧
    ((insertTree fuel bt k v).2 = some DBError.duplicateKey →
      (insertTree fuel bt k v).1 = bt) :=
  ⟨⟨fun h => (insertTree_dup_sound fuel bt k v hu hroot h).1,
    fun h => insertTree_dup_complete sig fuel hh bt k v hu hroot hk hwf hfuel h⟩,
   fun h => (insertTree_dup_sound fuel bt k v hu hroot h).2⟩

theorem insert_duplicate_iff_c1_witness :
    (treeC1.isUniqueKey = true ∧ treeC1.rootID ≠ "" ∧
     Shaped [KKind.num] (intKey 1) ∧ 0 < 8) ∧
    ((insertTree 8 treeC1 (intKey 1) (rowOf 1 "x")).2 =
        some DBError.duplicateKey ↔ TreeHasKey treeC1 (intKey 1)) ∧
    ((insertTree 8 treeC1 (intKey 1) (rowOf 1 "x")).2 =
        some DBError.duplicateKey →
      (insertTree 8 treeC1 (intKey 1) (rowOf 1 "x")).1 = treeC1) := by
  have hwf : WFNode treeC1.store [KKind.num] treeC1.rootID 0 none none := by
    refine WFNode.leaf _ nodeC1 0 none none ?_ rfl rfl ?_
    · decide
    · intro q hq
      have hq1 : q = intKey 1 := by
        simpa [nodeC1] using hq
      subst hq1
      exact ⟨rfl, fun l hl => Option.noConfusion hl,
        fun u hu => Option.noConfusion hu⟩
  exact ⟨⟨by decide, by decide, rfl, by decide⟩,
    (insert_duplicate_iff_c1 [KKind.num] 8 0 treeC1 (intKey 1) (rowOf 1 "x")
      (by decide) (by decide) rfl hwf (by decide)).1,
    (insert_duplicate_iff_c1 [KKind.num] 8 0 treeC1 (intKey 1) (rowOf 1 "x")
      (by decide) (by decide) rfl hwf (by decide)).2⟩


end Fsdb
